import Mathlib

/-!
Verification of the array-pool library: a segmented list (`ArrayList`), a
segmented index pool (`Pool`) built on it, and a contiguous growable array
pool (`ArrayPool`).

Modelling conventions:
* Go slices become `List`; in-place mutation becomes functional update.
* Go `int` indices that can be negative are `Int`; non-negative quantities
  (counts, lengths, fuel) are `Nat`.  Go `uint` is modelled as `Nat` with
  `% 2 ^ 64` at the points where 64-bit wrap-around can occur.
* A Go panic is modelled as `none` (or `Except.error` where the source
  formats an error message).
* Go map iteration order is unspecified; the free set is modelled as a
  `List Nat` and every operation that removes "an arbitrary member" takes an
  extra parameter `k` choosing the member (index `k % length`), so theorems
  quantify over all admissible choices.
* `ArrayList.Alloc` returns a pointer to the fresh slot; the model
  (`ArrayList.allocStep`) returns the slot position (segment, offset)
  instead, and writing through that pointer is `ArrayList.setPos`.
-/

/-- Go: func NearestPowerOf2(n uint) uint.  The source only smears the low
32 bits (shifts 1,2,4,8,16), operating on a 64-bit uint. -/
def NearestPowerOf2 (n : Nat) : Nat :=
  let n1 := (n + (2 ^ 64 - 1)) % 2 ^ 64
  let n2 := n1 ||| n1 >>> 1
  let n3 := n2 ||| n2 >>> 2
  let n4 := n3 ||| n3 >>> 4
  let n5 := n4 ||| n4 >>> 8
  let n6 := n5 ||| n5 >>> 16
  (n6 + 1) % 2 ^ 64

/-- Go: bits.TrailingZeros(x) for a 64-bit uint: the index of the least set
bit, 64 when x = 0. -/
def trailingZeros64 (n : Nat) : Nat :=
  (List.range 64).findIdx fun i => n.testBit i

/-- Go: const DefaultSegmentSize = 128. -/
def DefaultSegmentSize : Nat := 128

/-- Go: type Segment[T any] struct { arr []T; count int }. -/
structure Segment (T : Type) where
  arr : List T
  count : Nat
deriving DecidableEq, Repr

/-- Go: type ArrayList[T any] struct.  `defaultValue` is the zero value of
T, used to reset removed elements. -/
structure ArrayList (T : Type) where
  defaultValue : T
  count : Nat
  segments : List (Segment T)
  segmentIdx : Nat
  segmentSize : Nat
  segmentSizeMask : Nat
  segmentSizeShift : Nat
deriving DecidableEq, Repr

/-- Go: func NewArrayList[T any](segmentSize int) *ArrayList[T].  A
non-positive size falls back to DefaultSegmentSize; the size is rounded up
with NearestPowerOf2; mask and shift are derived from it.  `d` is the zero
value of T (implicit in Go). -/
def NewArrayList {T : Type} (d : T) (segmentSize : Int) : ArrayList T :=
  let sz : Int := if segmentSize ≤ 0 then (DefaultSegmentSize : Int) else segmentSize
  let s := NearestPowerOf2 sz.toNat
  { defaultValue := d, count := 0, segments := [], segmentIdx := 0,
    segmentSize := s, segmentSizeMask := s - 1, segmentSizeShift := trailingZeros64 s }

/-- The shared tail of Go ArrayList.Alloc, with the segment list `segs` and
cursor `i` as fixed by the branching above it: segment :=
&al.segments[al.segmentIdx]; segment.count++; al.count++; return
&segment.arr[segment.count-1].  Returns the updated list and the position
(segment index, offset) of the claimed slot; `none` models the panic. -/
def ArrayList.allocInto {T : Type} (al : ArrayList T) (segs : List (Segment T)) (i : Nat) :
    Option (ArrayList T × Nat × Nat) :=
  match segs[i]? with
  | none => none
  | some s =>
    if s.count < s.arr.length then
      some ({ al with
                segmentIdx := i
                count := al.count + 1
                segments := segs.set i { s with count := s.count + 1 } }, i, s.count)
    else none

/-- Go: func (al *ArrayList[T]) Alloc() *T.  If there are no segments, or
the cursor segment is full, append a segment and/or advance the cursor,
then claim the next slot of the cursor segment. -/
def ArrayList.allocStep {T : Type} (al : ArrayList T) : Option (ArrayList T × Nat × Nat) :=
  let newSeg : Segment T := { arr := List.replicate al.segmentSize al.defaultValue, count := 0 }
  if al.segments.length = 0 then
    al.allocInto (al.segments ++ [newSeg]) al.segmentIdx
  else
    match al.segments[al.segmentIdx]? with
    | none => none
    | some s =>
      if s.count = al.segmentSize then
        if al.segmentIdx = al.segments.length - 1 then
          al.allocInto (al.segments ++ [newSeg]) (al.segmentIdx + 1)
        else
          al.allocInto al.segments (al.segmentIdx + 1)
      else
        al.allocInto al.segments al.segmentIdx

/-- Reading the slot at raw position (segment `si`, offset `off`). -/
def ArrayList.getPos {T : Type} (al : ArrayList T) (si off : Nat) : Option T :=
  match al.segments[si]? with
  | none => none
  | some s => s.arr[off]?

/-- Writing through a pointer into the slot at raw position (`si`, `off`). -/
def ArrayList.setPos {T : Type} (al : ArrayList T) (si off : Nat) (v : T) : Option (ArrayList T) :=
  match al.segments[si]? with
  | none => none
  | some s =>
    if off < s.arr.length then
      some { al with segments := al.segments.set si { s with arr := s.arr.set off v } }
    else none

/-- Go: func (al *ArrayList[T]) Add(v T) *T: Alloc then assign v. -/
def ArrayList.Add {T : Type} (al : ArrayList T) (v : T) : Option (ArrayList T) :=
  match al.allocStep with
  | none => none
  | some (al', si, off) => al'.setPos si off v

/-- Go: func (al *ArrayList[T]) Get(idx int) T.  Panics (none) when
idx >= count or when the segment/offset access is out of range. -/
def ArrayList.Get {T : Type} (al : ArrayList T) (idx : Nat) : Option T :=
  if al.count ≤ idx then none
  else al.getPos (idx >>> al.segmentSizeShift) (idx &&& al.segmentSizeMask)

/-- Go: func (al *ArrayList[T]) GetRef(idx int) *T.  The returned pointer is
modelled as the slot position (segment, offset); none models the panic. -/
def ArrayList.GetRef {T : Type} (al : ArrayList T) (idx : Nat) : Option (Nat × Nat) :=
  if al.count ≤ idx then none
  else
    match al.segments[idx >>> al.segmentSizeShift]? with
    | none => none
    | some s =>
      if (idx &&& al.segmentSizeMask) < s.arr.length then
        some (idx >>> al.segmentSizeShift, idx &&& al.segmentSizeMask)
      else none

/-- Writing v through the pointer GetRef(idx): the combination
`*al.GetRef(idx) = v` used by Pool.Free. -/
def ArrayList.setRef {T : Type} (al : ArrayList T) (idx : Nat) (v : T) : Option (ArrayList T) :=
  if al.count ≤ idx then none
  else al.setPos (idx >>> al.segmentSizeShift) (idx &&& al.segmentSizeMask) v

/-- Go: func (al *ArrayList[T]) RemoveLast().  No-op when empty; decrements
the cursor segment; when it drains, retreats the cursor (clamped at 0) and,
unless the drained segment was the last one, nils out and truncates away the
segment at (old cursor + 1). -/
def ArrayList.RemoveLast {T : Type} (al : ArrayList T) : Option (ArrayList T) :=
  if al.count = 0 then some al
  else
    match al.segments[al.segmentIdx]? with
    | none => none
    | some seg =>
      let seg' : Segment T := { seg with count := seg.count - 1 }
      let segments1 := al.segments.set al.segmentIdx seg'
      let al1 := { al with segments := segments1, count := al.count - 1 }
      if 0 < seg'.count then some al1
      else
        let lastEmpty := al.segmentIdx
        let al2 := { al1 with segmentIdx := if 0 < al.segmentIdx then al.segmentIdx - 1 else al.segmentIdx }
        if segments1.length - 1 = lastEmpty then some al2
        else
          match segments1[lastEmpty + 1]? with
          | none => none
          | some s2 =>
            some { al2 with segments :=
              (segments1.set (lastEmpty + 1) { s2 with arr := [], count := 0 }).take (lastEmpty + 1) }

/-- Well-formedness invariant of an ArrayList, established by NewArrayList
and preserved by the operations the pools perform: the derived bit-math
constants agree, every segment owns an array of segmentSize slots, segment
fill counts follow the front-to-back layout, and the cursor sits on the
partial segment with at most one spare segment after it. -/
def ArrayList.WF {T : Type} (al : ArrayList T) : Prop :=
  0 < al.segmentSize ∧
  al.segmentSize = 2 ^ al.segmentSizeShift ∧
  al.segmentSizeMask = al.segmentSize - 1 ∧
  (∀ s ∈ al.segments, s.arr.length = al.segmentSize) ∧
  (∀ pr ∈ al.segments.enum, pr.2.count = min al.segmentSize (al.count - pr.1 * al.segmentSize)) ∧
  (al.segments.length = 0 → al.count = 0 ∧ al.segmentIdx = 0) ∧
  (0 < al.segments.length →
    al.segmentIdx < al.segments.length ∧
    al.count ≤ (al.segmentIdx + 1) * al.segmentSize ∧
    (al.count = 0 ∧ al.segmentIdx = 0 ∨ al.segmentIdx * al.segmentSize < al.count) ∧
    al.segments.length ≤ al.segmentIdx + 2)

instance ArrayList.WF.instDecidable {T : Type} (al : ArrayList T) : Decidable al.WF := by
  unfold ArrayList.WF
  infer_instance

/-- Go: type Pool[T any] struct { frees map[int]struct{}; items *ArrayList[T] }.
The map of free indices is modelled as a list of distinct naturals. -/
structure Pool (T : Type) where
  frees : List Nat
  items : ArrayList T
deriving DecidableEq, Repr

/-- Go: func NewPool[T any](segmentSize int) *Pool[T]. -/
def NewPool {T : Type} (d : T) (segmentSize : Int) : Pool T :=
  { frees := [], items := NewArrayList d segmentSize }

/-- Go: func (p *Pool[T]) Alloc() (int, *T).  If the free set is non-empty,
remove some member (map iteration order is arbitrary: parameter `k` selects
which) and return it after touching its slot via GetRef; otherwise return
items.Count() and allocate a fresh tail slot. -/
def Pool.Alloc {T : Type} (p : Pool T) (k : Nat) : Option (Nat × Pool T) :=
  if h : 0 < p.frees.length then
    let i := k % p.frees.length
    let id := p.frees.get ⟨i, Nat.mod_lt _ h⟩
    match p.items.Get id with
    | some _ => some (id, { p with frees := p.frees.eraseIdx i })
    | none => none
  else
    match p.items.allocStep with
    | none => none
    | some (al', _, _) => some (p.items.count, { p with items := al' })

/-- Go: func (p *Pool[T]) Free(id int).  Early return (no-op) when id is out
of [0, count) or already free; otherwise reset the slot to defaultValue and
record id as free. -/
def Pool.Free {T : Type} (p : Pool T) (id : Int) : Option (Pool T) :=
  if id < 0 ∨ (p.items.count : Int) ≤ id then some p
  else if id.toNat ∈ p.frees then some p
  else
    match p.items.setRef id.toNat p.items.defaultValue with
    | none => none
    | some al' => some { p with items := al', frees := id.toNat :: p.frees }

/-- Go: func (p *Pool[T]) Count() int = items.Count() - len(frees). -/
def Pool.Count {T : Type} (p : Pool T) : Int :=
  (p.items.count : Int) - (p.frees.length : Int)

/-- Iterated Pool.Alloc; one selector per call, collecting the returned ids. -/
def Pool.allocSeq {T : Type} : Pool T → List Nat → Option (List Nat × Pool T)
  | p, [] => some ([], p)
  | p, k :: ks =>
    match p.Alloc k with
    | none => none
    | some (id, p') =>
      match p'.allocSeq ks with
      | none => none
      | some (ids, p'') => some (id :: ids, p'')

/-- Iterated Pool.Free. -/
def Pool.freeSeq {T : Type} : Pool T → List Int → Option (Pool T)
  | p, [] => some p
  | p, id :: ids =>
    match p.Free id with
    | none => none
    | some p' => p'.freeSeq ids

/-- Go: type ArrayPool[T any] struct { arr []T; alloc int; free map[int]struct{} }.
arr[0] is a sentinel that is never allocated. -/
structure ArrayPool (T : Type) where
  arr : List T
  alloc : Nat
  free : List Nat
deriving DecidableEq, Repr

/-- Go: func NewArrayPool[T any](cap int) *ArrayPool[T]; panics (none) when
cap < 0; allocates cap+1 zero slots with the allocation pointer at 1.  `d`
is the zero value of T. -/
def NewArrayPool {T : Type} (d : T) (cap : Int) : Option (ArrayPool T) :=
  if cap < 0 then none
  else some { arr := List.replicate (cap.toNat + 1) d, alloc := 1, free := [] }

/-- Go: func (ap *ArrayPool[T]) nextCap(oldCap int) int. -/
def ArrayPool.nextCap (oldCap : Nat) : Nat :=
  let doubleCap := oldCap + oldCap
  if oldCap < 256 then doubleCap
  else oldCap + ((oldCap + 3 * 256) >>> 2)

/-- Go: func (ap *ArrayPool[T]) grow(): a fresh zeroed array of nextCap
slots with the old elements copied in. -/
def ArrayPool.grow {T : Type} (d : T) (ap : ArrayPool T) : ArrayPool T :=
  let newCap := ArrayPool.nextCap ap.arr.length
  { ap with arr := ap.arr.take newCap ++ List.replicate (newCap - ap.arr.length) d }

/-- Go: func (ap *ArrayPool[T]) Alloc() int.  `fuel` bounds the recursion
depth (none = non-termination); `k` selects which free-map member an
arbitrary-order iteration would remove. -/
def ArrayPool.AllocF {T : Type} (d : T) (k : Nat) : Nat → ArrayPool T → Option (Nat × ArrayPool T)
  | 0, _ => none
  | fuel + 1, ap =>
    if ap.alloc < ap.arr.length then
      some (ap.alloc, { ap with alloc := ap.alloc + 1 })
    else if h : 0 < ap.free.length then
      let i := k % ap.free.length
      some (ap.free.get ⟨i, Nat.mod_lt _ h⟩, { ap with free := ap.free.eraseIdx i })
    else
      ArrayPool.AllocF d k fuel (ap.grow d)

/-- The panic message of ArrayPool.Free on an invalid id. -/
def ArrayPool.freeMsg (id : Int) (alloc : Nat) : String :=
  "free invalid id:" ++ toString id ++ ", next alloc pos:" ++ toString alloc

/-- Go: func (ap *ArrayPool[T]) Free(id int).  Panics (error) when id <= 0
or id >= alloc; resets arr[id] from the sentinel arr[0]; retracts the
allocation pointer when id was the most recent allocation, otherwise adds id
to the free set unless already present. -/
def ArrayPool.Free {T : Type} (ap : ArrayPool T) (id : Int) : Except String (ArrayPool T) :=
  if id ≤ 0 ∨ (ap.alloc : Int) ≤ id then
    Except.error (ArrayPool.freeMsg id ap.alloc)
  else if hid : id.toNat < ap.arr.length then
    let arr2 := ap.arr.set id.toNat (ap.arr.get ⟨0, Nat.lt_of_le_of_lt (Nat.zero_le _) hid⟩)
    if id = (ap.alloc : Int) - 1 then
      Except.ok { ap with arr := arr2, alloc := ap.alloc - 1 }
    else if id.toNat ∈ ap.free then
      Except.ok { ap with arr := arr2 }
    else
      Except.ok { ap with arr := arr2, free := id.toNat :: ap.free }
  else
    Except.error "runtime error: index out of range"

/-- Go: func (ap *ArrayPool[T]) Get(id int) T: unchecked array access. -/
def ArrayPool.Get {T : Type} (ap : ArrayPool T) (id : Int) : Option T :=
  if 0 ≤ id then ap.arr[id.toNat]? else none

/-- Iterated ArrayPool.AllocF with fixed fuel and selector. -/
def ArrayPool.allocSeq {T : Type} (d : T) : ArrayPool T → List Nat → Option (List Nat × ArrayPool T)
  | ap, [] => some ([], ap)
  | ap, k :: ks =>
    match ArrayPool.AllocF d k 2 ap with
    | none => none
    | some (id, ap') =>
      match ArrayPool.allocSeq d ap' ks with
      | none => none
      | some (ids, ap'') => some (id :: ids, ap'')

/-! ### Generic helper lemmas -/

/-- Removing the element at index i and re-consing it is a permutation. -/
theorem perm_get_cons_eraseIdx {α : Type} :
    ∀ (l : List α) (i : Nat) (h : i < l.length),
      List.Perm (l.get ⟨i, h⟩ :: l.eraseIdx i) l
  | _ :: _, 0, _ => List.Perm.refl _
  | a :: l, i + 1, h => by
    have ih := perm_get_cons_eraseIdx l i (by simpa using Nat.lt_of_succ_lt_succ h)
    simpa [List.eraseIdx] using
      ((List.Perm.swap a (l.get ⟨i, by simpa using Nat.lt_of_succ_lt_succ h⟩)
        (l.eraseIdx i)).trans (List.Perm.cons a ih))

/-- Shape of a successful write through a GetRef pointer. -/
theorem ArrayList.setRef_shape {T : Type} {al al' : ArrayList T} {idx : Nat} {v : T}
    (h : al.setRef idx v = some al') :
    idx < al.count ∧ ∃ s, al.segments[idx >>> al.segmentSizeShift]? = some s ∧
      (idx &&& al.segmentSizeMask) < s.arr.length ∧
      al' = { al with segments := al.segments.set (idx >>> al.segmentSizeShift) { s with arr := s.arr.set (idx &&& al.segmentSizeMask) v } } := by
  unfold ArrayList.setRef ArrayList.setPos at h
  split at h
  · exact absurd h (by simp)
  · rename_i hcnt
    constructor
    · omega
    · split at h
      · exact absurd h (by simp)
      · rename_i s hs
        split at h
        · rename_i hoff
          exact ⟨s, hs, hoff, by simpa using h.symm⟩
        · exact absurd h (by simp)

/-- A successful setRef preserves every field except segments. -/
theorem ArrayList.setRef_fields {T : Type} {al al' : ArrayList T} {idx : Nat} {v : T}
    (h : al.setRef idx v = some al') :
    al'.count = al.count ∧ al'.defaultValue = al.defaultValue ∧
    al'.segmentIdx = al.segmentIdx ∧ al'.segmentSize = al.segmentSize ∧
    al'.segmentSizeMask = al.segmentSizeMask ∧
    al'.segmentSizeShift = al.segmentSizeShift ∧
    al'.segments.length = al.segments.length := by
  obtain ⟨-, s, -, -, rfl⟩ := ArrayList.setRef_shape h
  simp

/-- Arithmetic characterization of ArrayPool.nextCap. -/
theorem ArrayPool.nextCap_eq (c : Nat) :
    ArrayPool.nextCap c = if c < 256 then c + c else c + (c + 3 * 256) / 4 := by
  simp only [ArrayPool.nextCap, Nat.shiftRight_eq_div_pow]

/-! ### C5: contiguous allocation policy -/

/-- C5: the contiguous pool's Alloc returns allocPtr and increments it while
allocPtr < capacity; otherwise, with a non-empty free set, it removes and
returns an arbitrary member; otherwise it grows the array (doubling below
256, +25 percent above), copying all existing elements, and retries. -/
theorem c5_contiguous_alloc_policy {T : Type} (d : T) (ap : ArrayPool T) (k fuel : Nat) :
    (ap.alloc < ap.arr.length →
      ArrayPool.AllocF d k (fuel + 1) ap = some (ap.alloc, { ap with alloc := ap.alloc + 1 })) ∧
    (ap.arr.length ≤ ap.alloc → 0 < ap.free.length →
      ∃ id, ArrayPool.AllocF d k (fuel + 1) ap =
          some (id, { ap with free := ap.free.eraseIdx (k % ap.free.length) }) ∧
        id ∈ ap.free ∧
        List.Perm (id :: ap.free.eraseIdx (k % ap.free.length)) ap.free) ∧
    (ap.arr.length ≤ ap.alloc → ap.free = [] →
      ArrayPool.AllocF d k (fuel + 1) ap = ArrayPool.AllocF d k fuel (ap.grow d) ∧
      (ap.grow d).arr.length = ArrayPool.nextCap ap.arr.length ∧
      (ap.grow d).arr = ap.arr ++ List.replicate (ArrayPool.nextCap ap.arr.length - ap.arr.length) d ∧
      (ap.arr.length < 256 → ArrayPool.nextCap ap.arr.length = 2 * ap.arr.length) ∧
      (256 ≤ ap.arr.length →
        ArrayPool.nextCap ap.arr.length = ap.arr.length + (ap.arr.length + 3 * 256) / 4) ∧
      (ap.alloc = ap.arr.length → 1 ≤ ap.arr.length →
        ArrayPool.AllocF d k 2 ap =
          some (ap.alloc, { ap with arr := (ap.grow d).arr, alloc := ap.alloc + 1 }))) := by
  refine ⟨?_, ?_, ?_⟩
  · intro hlt
    simp [ArrayPool.AllocF, hlt]
  · intro hge hfree
    refine ⟨ap.free.get ⟨k % ap.free.length, Nat.mod_lt _ hfree⟩, ?_, ?_, ?_⟩
    · simp only [ArrayPool.AllocF]
      rw [if_neg (by omega), dif_pos hfree]
    · exact List.get_mem _ _ _
    · exact perm_get_cons_eraseIdx _ _ _
  · intro hge hfree
    have hlen : ap.arr.length ≤ ArrayPool.nextCap ap.arr.length := by
      rw [ArrayPool.nextCap_eq]
      split
      · omega
      · omega
    have harr : (ap.grow d).arr =
        ap.arr ++ List.replicate (ArrayPool.nextCap ap.arr.length - ap.arr.length) d := by
      unfold ArrayPool.grow
      simp [List.take_of_length_le hlen]
    refine ⟨?_, ?_, harr, ?_, ?_, ?_⟩
    · simp only [ArrayPool.AllocF]
      rw [if_neg (by omega), dif_neg (by simp [hfree])]
    · rw [harr]
      simp only [List.length_append, List.length_replicate]
      omega
    · intro h256
      rw [ArrayPool.nextCap_eq, if_pos h256]
      omega
    · intro h256
      rw [ArrayPool.nextCap_eq, if_neg (by omega)]
    · intro heq hpos
      have hcap2 : ap.arr.length < ArrayPool.nextCap ap.arr.length := by
        rw [ArrayPool.nextCap_eq]
        split
        · omega
        · omega
      have hcap : (ap.grow d).alloc < (ap.grow d).arr.length := by
        show ap.alloc < (ap.grow d).arr.length
        rw [harr]
        simp only [List.length_append, List.length_replicate]
        omega
      simp only [ArrayPool.AllocF]
      rw [if_neg (by omega), dif_neg (by simp [hfree]), if_pos hcap]
      rfl

theorem c5_contiguous_alloc_policy_witness :
    ArrayPool.AllocF (0 : Nat) 0 1 ⟨[0, 0], 1, []⟩ =
      some (1, { arr := [0, 0], alloc := 2, free := ([] : List Nat) }) ∧
    (∃ id, ArrayPool.AllocF (0 : Nat) 0 1 ⟨[0, 0], 2, [1]⟩ =
        some (id, { arr := [0, 0], alloc := 2, free := ([] : List Nat) }) ∧
      id ∈ [1] ∧ List.Perm [id] [1]) ∧
    ArrayPool.AllocF (0 : Nat) 0 2 ⟨[0, 0], 2, []⟩ =
      some (2, { arr := [0, 0, 0, 0], alloc := 3, free := ([] : List Nat) }) := by
  refine ⟨?_, ?_, ?_⟩
  · exact (c5_contiguous_alloc_policy (0 : Nat) ⟨[0, 0], 1, []⟩ 0 0).1 (by decide)
  · exact (c5_contiguous_alloc_policy (0 : Nat) ⟨[0, 0], 2, [1]⟩ 0 0).2.1 (by decide) (by decide)
  · exact ((c5_contiguous_alloc_policy (0 : Nat) ⟨[0, 0], 2, []⟩ 0 1).2.2 (by decide) rfl).2.2.2.2.2
      rfl (by decide)

/-! ### C6: contiguous invalid free is fatal -/

/-- C6: ArrayPool.Free aborts with the error naming the id and the current
allocation pointer exactly when id <= 0 or id >= allocPtr, and succeeds for
every id with 0 < id < allocPtr. -/
theorem c6_contiguous_invalid_free {T : Type} (ap : ArrayPool T) (id : Int)
    (hlen : ap.alloc ≤ ap.arr.length) :
    ((id ≤ 0 ∨ (ap.alloc : Int) ≤ id) →
      ap.Free id = Except.error (ArrayPool.freeMsg id ap.alloc)) ∧
    (0 < id → id < (ap.alloc : Int) →
      ∃ ap', ap.Free id = Except.ok ap') := by
  constructor
  · intro h
    unfold ArrayPool.Free
    rw [if_pos h]
  · intro h1 h2
    have hid : id.toNat < ap.arr.length := by omega
    unfold ArrayPool.Free
    rw [if_neg (by omega), dif_pos hid]
    split
    · exact ⟨_, rfl⟩
    · split
      · exact ⟨_, rfl⟩
      · exact ⟨_, rfl⟩

theorem c6_contiguous_invalid_free_witness :
    ArrayPool.Free (⟨[0, 0, 0], 2, []⟩ : ArrayPool Nat) 0 = Except.error (ArrayPool.freeMsg 0 2) ∧
    ArrayPool.Free (⟨[0, 0, 0], 2, []⟩ : ArrayPool Nat) 5 = Except.error (ArrayPool.freeMsg 5 2) ∧
    ∃ ap', ArrayPool.Free (⟨[0, 0, 0], 2, []⟩ : ArrayPool Nat) 1 = Except.ok ap' := by
  refine ⟨?_, ?_, ?_⟩
  · exact (c6_contiguous_invalid_free ⟨[0, 0, 0], 2, []⟩ 0 (by decide)).1 (by decide)
  · exact (c6_contiguous_invalid_free ⟨[0, 0, 0], 2, []⟩ 5 (by decide)).1 (by decide)
  · exact (c6_contiguous_invalid_free ⟨[0, 0, 0], 2, []⟩ 1 (by decide)).2 (by decide) (by decide)

/-! ### C10: termination of the contiguous Alloc -/

/-- C10: nextCap strictly grows for every positive capacity, so the
recursive Alloc terminates from every reachable state within recursion
depth two (fuel 2 suffices). -/
theorem c10_alloc_termination {T : Type} (d : T) (ap : ArrayPool T) (k : Nat)
    (h1 : 1 ≤ ap.alloc) (h2 : ap.alloc ≤ ap.arr.length) :
    (∀ c, 1 ≤ c → c < ArrayPool.nextCap c) ∧
    ∃ r, ArrayPool.AllocF d k 2 ap = some r := by
  have hgrow : ∀ c, 1 ≤ c → c < ArrayPool.nextCap c := by
    intro c hc
    rw [ArrayPool.nextCap_eq]
    split
    · omega
    · omega
  refine ⟨hgrow, ?_⟩
  by_cases hlt : ap.alloc < ap.arr.length
  · simp only [ArrayPool.AllocF]
    rw [if_pos hlt]
    exact ⟨_, rfl⟩
  · by_cases hf : 0 < ap.free.length
    · simp only [ArrayPool.AllocF]
      rw [if_neg hlt, dif_pos hf]
      exact ⟨_, rfl⟩
    · have h3 := hgrow ap.arr.length (by omega)
      have hcap : (ap.grow d).alloc < (ap.grow d).arr.length := by
        show ap.alloc < (ap.grow d).arr.length
        unfold ArrayPool.grow
        simp only [List.length_append, List.length_take, List.length_replicate]
        omega
      simp only [ArrayPool.AllocF]
      rw [if_neg hlt, dif_neg hf, if_pos hcap]
      exact ⟨_, rfl⟩

theorem c10_alloc_termination_witness :
    (∀ c, 1 ≤ c → c < ArrayPool.nextCap c) ∧
    ∃ r, ArrayPool.AllocF (0 : Nat) 0 2 ⟨[0, 0], 2, []⟩ = some r :=
  c10_alloc_termination (0 : Nat) ⟨[0, 0], 2, []⟩ 0 (by decide) (by decide)

/-! ### C3: release idempotence -/

/-- C3 counterexample: on the contiguous fast path the second Free of the
same id aborts instead of being a no-op.  From arr [0,0,0,0] with alloc = 2,
id 1 is valid; Free 1 retracts alloc to 1, and Free 1 again panics. -/
theorem c3_double_free_fast_path_counterexample :
    ArrayPool.Free (⟨[0, 0, 0, 0], 2, []⟩ : ArrayPool Nat) 1 = Except.ok ⟨[0, 0, 0, 0], 1, []⟩ ∧
    ArrayPool.Free (⟨[0, 0, 0, 0], 1, []⟩ : ArrayPool Nat) 1 =
      Except.error (ArrayPool.freeMsg 1 1) ∧
    ∀ ap' : ArrayPool Nat,
      ArrayPool.Free (⟨[0, 0, 0, 0], 1, []⟩ : ArrayPool Nat) 1 ≠ Except.ok ap' := by
  have h2 : ArrayPool.Free (⟨[0, 0, 0, 0], 1, []⟩ : ArrayPool Nat) 1 =
      Except.error (ArrayPool.freeMsg 1 1) := by
    unfold ArrayPool.Free
    rw [if_pos (by decide)]
  refine ⟨by rfl, h2, ?_⟩
  intro ap' h
  rw [h2] at h
  exact Except.noConfusion h

/-- The second no-op guard of Pool.Free: freeing an id already in the free
set (or otherwise guarded) never changes the pool. -/
theorem Pool.Free_mem {T : Type} {p : Pool T} {id : Int} (hmem : id.toNat ∈ p.frees) :
    p.Free id = some p := by
  unfold Pool.Free
  by_cases hg : id < 0 ∨ (p.items.count : Int) ≤ id
  · rw [if_pos hg]
  · rw [if_neg hg, if_pos hmem]

/-- Reading index 0 of a list is unaffected by setting a non-zero index. -/
theorem get_zero_set_ne {α : Type} :
    ∀ (l : List α) (i : Nat) (a : α), i ≠ 0 →
      ∀ (h1 : 0 < (l.set i a).length) (h2 : 0 < l.length),
        (l.set i a).get ⟨0, h1⟩ = l.get ⟨0, h2⟩
  | [], _, _, _, h1, _ => by simp at h1
  | b :: t, 0, a, hi, _, _ => absurd rfl hi
  | b :: t, i + 1, a, _, _, _ => rfl

/-- Case analysis of a successful ArrayPool.Free. -/
theorem ArrayPool.Free_ok_shape {T : Type} {ap ap' : ArrayPool T} {id : Int}
    (h : ap.Free id = Except.ok ap') :
    0 < id ∧ id < (ap.alloc : Int) ∧
    ∃ hid : id.toNat < ap.arr.length,
      ((id = (ap.alloc : Int) - 1 ∧ ap' = { ap with arr := ap.arr.set id.toNat (ap.arr.get ⟨0, Nat.lt_of_le_of_lt (Nat.zero_le _) hid⟩), alloc := ap.alloc - 1 }) ∨
       (id ≠ (ap.alloc : Int) - 1 ∧ id.toNat ∈ ap.free ∧ ap' = { ap with arr := ap.arr.set id.toNat (ap.arr.get ⟨0, Nat.lt_of_le_of_lt (Nat.zero_le _) hid⟩) }) ∨
       (id ≠ (ap.alloc : Int) - 1 ∧ id.toNat ∉ ap.free ∧ ap' = { ap with arr := ap.arr.set id.toNat (ap.arr.get ⟨0, Nat.lt_of_le_of_lt (Nat.zero_le _) hid⟩), free := id.toNat :: ap.free })) := by
  unfold ArrayPool.Free at h
  split at h
  · exact absurd h (by simp)
  · rename_i hguard
    split at h
    · rename_i hid
      refine ⟨by omega, by omega, hid, ?_⟩
      split at h
      · rename_i hfast
        exact Or.inl ⟨hfast, by simpa using h.symm⟩
      · rename_i hfast
        split at h
        · rename_i hmem
          exact Or.inr (Or.inl ⟨hfast, hmem, by simpa using h.symm⟩)
        · rename_i hmem
          exact Or.inr (Or.inr ⟨hfast, hmem, by simpa using h.symm⟩)
    · exact absurd h (by simp)

/-- C3 amended: release is idempotent for the segmented pool (all paths) and
for the contiguous pool's free-set path; on the contiguous free-most-recent
fast path the id stops being valid, so the second release aborts as an
invalid free instead of being a no-op. -/
theorem c3_release_idempotence_amended {T : Type} :
    (∀ (p p' : Pool T) (id : Int), p.Free id = some p' → p'.Free id = some p') ∧
    (∀ (ap ap' : ArrayPool T) (id : Int), 0 < id → id < (ap.alloc : Int) - 1 →
      ap.Free id = Except.ok ap' → ap'.Free id = Except.ok ap') ∧
    (∀ (ap ap' : ArrayPool T) (id : Int), 0 < id → id = (ap.alloc : Int) - 1 →
      ap.Free id = Except.ok ap' →
      ap'.Free id = Except.error (ArrayPool.freeMsg id ap'.alloc)) := by
  refine ⟨?_, ?_, ?_⟩
  · intro p p' id h
    unfold Pool.Free at h
    split at h
    · rename_i hg
      obtain rfl : p = p' := by simpa using h
      unfold Pool.Free
      rw [if_pos hg]
    · split at h
      · rename_i hmem
        obtain rfl : p = p' := by simpa using h
        exact Pool.Free_mem hmem
      · split at h
        · exact absurd h (by simp)
        · rename_i al' hset
          obtain rfl : { p with items := al', frees := id.toNat :: p.frees } = p' := by
            simpa using h
          exact Pool.Free_mem (List.mem_cons_self _ _)
  · intro ap ap' id h0 hlt h
    obtain ⟨hpos, hlt2, hid, hcase⟩ := ArrayPool.Free_ok_shape h
    have hne0 : id.toNat ≠ 0 := by omega
    rcases hcase with ⟨hfast, rfl⟩ | ⟨hfast, hmem, rfl⟩ | ⟨hfast, hmem, rfl⟩
    · exact absurd hfast (by omega)
    · unfold ArrayPool.Free
      rw [if_neg (by show ¬(id ≤ 0 ∨ (ap.alloc : Int) ≤ id); omega),
        dif_pos (by simpa using hid)]
      rw [if_neg (by show ¬(id = (ap.alloc : Int) - 1); omega), if_pos hmem]
      rw [get_zero_set_ne ap.arr id.toNat _ hne0, List.set_set]
    · unfold ArrayPool.Free
      rw [if_neg (by show ¬(id ≤ 0 ∨ (ap.alloc : Int) ≤ id); omega),
        dif_pos (by simpa using hid)]
      rw [if_neg (by show ¬(id = (ap.alloc : Int) - 1); omega),
        if_pos (List.mem_cons_self _ _)]
      rw [get_zero_set_ne ap.arr id.toNat _ hne0, List.set_set]
  · intro ap ap' id h0 heq h
    obtain ⟨hpos, hlt2, hid, hcase⟩ := ArrayPool.Free_ok_shape h
    rcases hcase with ⟨hfast, rfl⟩ | ⟨hfast, hmem, rfl⟩ | ⟨hfast, hmem, rfl⟩
    · unfold ArrayPool.Free
      rw [if_pos (by show id ≤ 0 ∨ ((ap.alloc - 1 : Nat) : Int) ≤ id; omega)]
    · exact absurd hfast (by omega)
    · exact absurd hfast (by omega)

theorem c3_release_idempotence_amended_witness :
    Pool.Free { frees := [1], items := NewArrayList (0 : Nat) 4 } 1 =
      some { frees := [1], items := NewArrayList (0 : Nat) 4 } ∧
    ArrayPool.Free (⟨[0, 0, 0, 0], 3, [1]⟩ : ArrayPool Nat) 1 = Except.ok ⟨[0, 0, 0, 0], 3, [1]⟩ ∧
    ArrayPool.Free (⟨[0, 0, 0, 0], 1, []⟩ : ArrayPool Nat) 1 =
      Except.error (ArrayPool.freeMsg 1 1) := by
  refine ⟨?_, ?_, ?_⟩
  · exact (@c3_release_idempotence_amended Nat).1 { frees := [1], items := NewArrayList (0 : Nat) 4 }
      { frees := [1], items := NewArrayList (0 : Nat) 4 } 1 rfl
  · exact (@c3_release_idempotence_amended Nat).2.1 ⟨[0, 0, 0, 0], 3, [1]⟩ ⟨[0, 0, 0, 0], 3, [1]⟩ 1
      (by decide) (by decide) rfl
  · exact (@c3_release_idempotence_amended Nat).2.2 ⟨[0, 0, 0, 0], 2, []⟩ ⟨[0, 0, 0, 0], 1, []⟩ 1
      (by decide) (by decide) rfl

/-! ### C4: round-trip reuse -/

/-- C4 counterexample (contiguous variant): with capacity 3, allocate twice
(ids 1,2), free both (1 then 2 via tail retraction), then allocate twice
again: the second batch is ids 2,3, not the original set 1,2, because Alloc
prefers the dense allocation pointer over the free set. -/
theorem c4_contiguous_roundtrip_counterexample :
    NewArrayPool (0 : Nat) 3 = some ⟨[0, 0, 0, 0], 1, []⟩ ∧
    ArrayPool.allocSeq (0 : Nat) ⟨[0, 0, 0, 0], 1, []⟩ [0, 0] =
      some ([1, 2], ⟨[0, 0, 0, 0], 3, []⟩) ∧
    ArrayPool.Free (⟨[0, 0, 0, 0], 3, []⟩ : ArrayPool Nat) 1 =
      Except.ok ⟨[0, 0, 0, 0], 3, [1]⟩ ∧
    ArrayPool.Free (⟨[0, 0, 0, 0], 3, [1]⟩ : ArrayPool Nat) 2 =
      Except.ok ⟨[0, 0, 0, 0], 2, [1]⟩ ∧
    ArrayPool.allocSeq (0 : Nat) ⟨[0, 0, 0, 0], 2, [1]⟩ [0, 0] =
      some ([2, 3], ⟨[0, 0, 0, 0], 4, [1]⟩) ∧
    ¬ List.Perm ([2, 3] : List Nat) [1, 2] := by
  refine ⟨by decide, by decide, by rfl, by rfl, by decide, by decide⟩

/-! ### C9: power-of-two rounding -/

/-- One or-shift smearing step. -/
def orShift (w y : Nat) : Nat := y ||| y >>> w

/-- NearestPowerOf2 as a chain of or-shift steps on n-1 (with the 64-bit
wrap of the Go uint decrement and increment). -/
theorem NearestPowerOf2_eq (n : Nat) :
    NearestPowerOf2 n =
      (orShift 16 (orShift 8 (orShift 4 (orShift 2 (orShift 1 ((n + (2 ^ 64 - 1)) % 2 ^ 64))))) + 1) % 2 ^ 64 := rfl

/-- A smearing step doubles the window of source bits that reach each
output bit. -/
theorem orShift_testBit {x w y : Nat}
    (hy : ∀ i, (y.testBit i = true) ↔ ∃ k, k < w ∧ x.testBit (i + k) = true) :
    ∀ i, ((orShift w y).testBit i = true) ↔ ∃ k, k < w + w ∧ x.testBit (i + k) = true := by
  intro i
  unfold orShift
  rw [Nat.testBit_or, Nat.testBit_shiftRight, Bool.or_eq_true]
  constructor
  · intro h
    cases h with
    | inl h1 =>
      obtain ⟨k, hk, hx⟩ := (hy i).mp h1
      exact ⟨k, by omega, hx⟩
    | inr h2 =>
      obtain ⟨k, hk, hx⟩ := (hy (w + i)).mp h2
      refine ⟨w + k, by omega, ?_⟩
      rw [show i + (w + k) = w + i + k by omega]
      exact hx
  · rintro ⟨k, hk, hx⟩
    by_cases hkw : k < w
    · exact Or.inl ((hy i).mpr ⟨k, hkw, hx⟩)
    · refine Or.inr ((hy (w + i)).mpr ⟨k - w, by omega, ?_⟩)
      rw [show w + i + (k - w) = i + k by omega]
      exact hx

/-- After the five smearing steps, output bit i sees source bits i..i+31. -/
theorem smear_testBit (x : Nat) :
    ∀ i, ((orShift 16 (orShift 8 (orShift 4 (orShift 2 (orShift 1 x))))).testBit i = true) ↔
      ∃ k, k < 32 ∧ x.testBit (i + k) = true := by
  have h1 : ∀ i, (x.testBit i = true) ↔ ∃ k, k < 1 ∧ x.testBit (i + k) = true := by
    intro i
    constructor
    · intro h
      exact ⟨0, Nat.zero_lt_one, by simpa using h⟩
    · rintro ⟨k, hk, h⟩
      obtain rfl : k = 0 := by omega
      simpa using h
  exact orShift_testBit (orShift_testBit (orShift_testBit (orShift_testBit (orShift_testBit h1))))

/-- A set bit forces a lower bound. -/
theorem le_of_testBit {x j : Nat} (h : x.testBit j = true) : 2 ^ j ≤ x := by
  rw [Nat.testBit_to_div_mod] at h
  have h2 := of_decide_eq_true h
  by_contra hlt
  push_neg at hlt
  rw [Nat.div_eq_of_lt hlt] at h2
  simp at h2

/-- The top bit of a positive number is set. -/
theorem testBit_size_sub_one {x : Nat} (hx : 0 < x) : x.testBit (Nat.size x - 1) = true := by
  have hp : 0 < Nat.size x := Nat.size_pos.mpr hx
  have h1 : 2 ^ (Nat.size x - 1) ≤ x := Nat.lt_size.mp (by omega)
  have h2 : x < 2 ^ Nat.size x := Nat.lt_size_self x
  have hsplit : 2 ^ Nat.size x = 2 ^ (Nat.size x - 1) * 2 := by
    rw [← Nat.pow_succ]
    congr 1
    omega
  rw [Nat.testBit_to_div_mod]
  have hdiv : x / 2 ^ (Nat.size x - 1) = 1 := by
    have hlo : 1 ≤ x / 2 ^ (Nat.size x - 1) :=
      (Nat.le_div_iff_mul_le (Nat.two_pow_pos _)).mpr (by omega)
    have hhi : x / 2 ^ (Nat.size x - 1) < 2 := by
      rw [Nat.div_lt_iff_lt_mul (Nat.two_pow_pos _)]
      omega
    omega
  rw [hdiv]
  decide

/-- For a 32-bit input the smear yields exactly the all-ones mask of its
bit length. -/
theorem smear_eq_two_pow_size {x : Nat} (hx : x < 2 ^ 32) :
    orShift 16 (orShift 8 (orShift 4 (orShift 2 (orShift 1 x)))) = 2 ^ Nat.size x - 1 := by
  have hsz : Nat.size x ≤ 32 := Nat.size_le.mpr hx
  apply Nat.eq_of_testBit_eq
  intro i
  rw [Nat.testBit_two_pow_sub_one]
  by_cases hi : i < Nat.size x
  · rw [decide_eq_true hi]
    rw [smear_testBit x i]
    refine ⟨Nat.size x - 1 - i, by omega, ?_⟩
    rw [show i + (Nat.size x - 1 - i) = Nat.size x - 1 by omega]
    have hxpos : 0 < x := by
      by_contra hx0
      push_neg at hx0
      obtain rfl : x = 0 := by omega
      rw [Nat.size_zero] at hi
      omega
    exact testBit_size_sub_one hxpos
  · rw [decide_eq_false hi]
    by_contra hbit
    rw [Bool.not_eq_false, smear_testBit x i] at hbit
    obtain ⟨k, hk, hset⟩ := hbit
    have := le_of_testBit hset
    have h2 : x < 2 ^ (i + k) := by
      calc x < 2 ^ Nat.size x := Nat.lt_size_self x
      _ ≤ 2 ^ (i + k) := Nat.pow_le_pow_right (by omega) (by omega)
    omega

/-- On positive inputs up to 2^32, NearestPowerOf2 returns the power of two
with exponent size(n-1). -/
theorem nearestPowerOf2_eq_pow {n : Nat} (h0 : 0 < n) (h32 : n ≤ 2 ^ 32) :
    NearestPowerOf2 n = 2 ^ Nat.size (n - 1) := by
  have e64 : (2 : Nat) ^ 64 = 18446744073709551616 := by norm_num
  have e32 : (2 : Nat) ^ 32 = 4294967296 := by norm_num
  rw [NearestPowerOf2_eq, e64]
  have hstep : (n + (18446744073709551616 - 1)) % 18446744073709551616 = n - 1 := by
    omega
  rw [hstep, smear_eq_two_pow_size (by omega)]
  have hL : Nat.size (n - 1) ≤ 32 := Nat.size_le.mpr (by omega)
  have hub : 2 ^ Nat.size (n - 1) ≤ 2 ^ 32 := Nat.pow_le_pow_right (by omega) hL
  have hlb : 1 ≤ 2 ^ Nat.size (n - 1) := Nat.one_le_two_pow
  omega

/-- C9 counterexample: above 2^32 the 32-bit smear misses high bits; at
n = 2^32 + 1 the function returns 2^33 - 1, which is not a power of two at
all (so in particular not the least power of two at or above n). -/
theorem c9_power_of_two_counterexample :
    NearestPowerOf2 (2 ^ 32 + 1) = 2 ^ 33 - 1 ∧
    ∀ k : Nat, 2 ^ k ≠ NearestPowerOf2 (2 ^ 32 + 1) := by
  have h1 : NearestPowerOf2 (2 ^ 32 + 1) = 2 ^ 33 - 1 := by decide
  have e33 : (2 : Nat) ^ 33 - 1 = 8589934591 := by norm_num
  refine ⟨h1, ?_⟩
  intro k h
  rw [h1, e33] at h
  cases k with
  | zero => exact absurd h (by decide)
  | succ m =>
    rw [pow_succ] at h
    omega

/-- C9 amended: for every segment size n with 0 < n <= 2^32,
NearestPowerOf2(n), as used by NewArrayList to fix segmentSize, returns the
smallest power of two greater than or equal to n.  (Above 2^32 the claim
fails, see the counterexample.) -/
theorem c9_nearest_power_of_two_amended (n : Nat) (h0 : 0 < n) (h32 : n ≤ 2 ^ 32) :
    ∃ k, NearestPowerOf2 n = 2 ^ k ∧ n ≤ 2 ^ k ∧ (∀ j, n ≤ 2 ^ j → k ≤ j) ∧
      ∀ (T : Type) (d : T), (NewArrayList d (n : Int)).segmentSize = 2 ^ k := by
  refine ⟨Nat.size (n - 1), nearestPowerOf2_eq_pow h0 h32, ?_, ?_, ?_⟩
  · have := Nat.lt_size_self (n - 1)
    omega
  · intro j hj
    exact Nat.size_le.mpr (by omega)
  · intro U d
    show NearestPowerOf2 (if (n : Int) ≤ 0 then (DefaultSegmentSize : Int) else (n : Int)).toNat =
      2 ^ Nat.size (n - 1)
    rw [if_neg (by omega), Int.toNat_ofNat]
    exact nearestPowerOf2_eq_pow h0 h32

theorem c9_nearest_power_of_two_amended_witness :
    ∃ k, NearestPowerOf2 5 = 2 ^ k ∧ 5 ≤ 2 ^ k ∧ (∀ j, 5 ≤ 2 ^ j → k ≤ j) ∧
      ∀ (T : Type) (d : T), (NewArrayList d (5 : Int)).segmentSize = 2 ^ k :=
  c9_nearest_power_of_two_amended 5 (by decide) (by norm_num)

/-- bits.TrailingZeros of a power of two is its exponent (checked for every
exponent a rounded segment size can take). -/
theorem trailingZeros64_two_pow : ∀ k, k < 34 → trailingZeros64 (2 ^ k) = k := by decide

/-- NewArrayList establishes the well-formedness invariant for every
segment size parameter up to 2^32 (including the non-positive default). -/
theorem NewArrayList_WF {T : Type} (d : T) (s : Int) (hs : s ≤ 2 ^ 32) :
    (NewArrayList d s).WF := by
  by_cases hpos : s ≤ 0
  · have hrw : NewArrayList d s =
        { defaultValue := d, count := 0, segments := [], segmentIdx := 0,
          segmentSize := 128, segmentSizeMask := 127, segmentSizeShift := 7 } := by
      unfold NewArrayList
      rw [if_pos hpos]
      rfl
    rw [hrw]
    exact ⟨by norm_num, by norm_num, rfl, by simp, by simp, fun _ => ⟨rfl, rfl⟩, by simp⟩
  · have h0 : 0 < s.toNat := by omega
    have e32i : (2 : Int) ^ 32 = 4294967296 := by norm_num
    have e32n : (2 : Nat) ^ 32 = 4294967296 := by norm_num
    have h32 : s.toNat ≤ 2 ^ 32 := by omega
    have hpow := nearestPowerOf2_eq_pow h0 h32
    have hL : Nat.size (s.toNat - 1) ≤ 32 := Nat.size_le.mpr (by omega)
    have hrw : NewArrayList d s =
        { defaultValue := d, count := 0, segments := [], segmentIdx := 0,
          segmentSize := NearestPowerOf2 s.toNat,
          segmentSizeMask := NearestPowerOf2 s.toNat - 1,
          segmentSizeShift := trailingZeros64 (NearestPowerOf2 s.toNat) } := by
      unfold NewArrayList
      rw [if_neg hpos]
    rw [hrw]
    refine ⟨?_, ?_, rfl, by simp, by simp, fun _ => ⟨rfl, rfl⟩, by simp⟩
    · rw [hpow]
      exact Nat.two_pow_pos _
    · show NearestPowerOf2 s.toNat = 2 ^ trailingZeros64 (NearestPowerOf2 s.toNat)
      rw [hpow, trailingZeros64_two_pow _ (by omega)]

/-! ### Access lemmas for well-formed ArrayLists -/

/-- The segment-count layout of WF, in indexed form. -/
theorem ArrayList.WF.layout {T : Type} {al : ArrayList T} (h : al.WF) {i : Nat} {s : Segment T}
    (hs : al.segments[i]? = some s) :
    s.count = min al.segmentSize (al.count - i * al.segmentSize) := by
  obtain ⟨-, -, -, -, hlay, -, -⟩ := h
  obtain ⟨hi, rfl⟩ := List.getElem?_eq_some_iff.mp hs
  exact List.forall_mem_enum.mp hlay i hi

/-- Every segment of a WF list owns segmentSize slots. -/
theorem ArrayList.WF.arrlen {T : Type} {al : ArrayList T} (h : al.WF) {i : Nat} {s : Segment T}
    (hs : al.segments[i]? = some s) : s.arr.length = al.segmentSize := by
  obtain ⟨-, -, -, harr, -⟩ := h
  exact harr s (List.getElem?_mem hs)

/-- Under WF, the shift computes division by the segment size. -/
theorem ArrayList.WF.shift_eq {T : Type} {al : ArrayList T} (h : al.WF) (idx : Nat) :
    idx >>> al.segmentSizeShift = idx / al.segmentSize := by
  obtain ⟨-, hsz, -, -⟩ := h
  rw [Nat.shiftRight_eq_div_pow, hsz]

/-- Under WF, the mask computes the remainder modulo the segment size. -/
theorem ArrayList.WF.mask_eq {T : Type} {al : ArrayList T} (h : al.WF) (idx : Nat) :
    idx &&& al.segmentSizeMask = idx % al.segmentSize := by
  obtain ⟨-, hsz, hmask, -⟩ := h
  rw [hmask, hsz, Nat.and_pow_two_sub_one_eq_mod]

/-- Every index below count maps to an in-bounds segment slot. -/
theorem ArrayList.WF.pos_valid {T : Type} {al : ArrayList T} (h : al.WF) {idx : Nat}
    (hidx : idx < al.count) :
    ∃ s, al.segments[idx / al.segmentSize]? = some s ∧
      idx / al.segmentSize ≤ al.segmentIdx ∧ idx % al.segmentSize < s.arr.length := by
  obtain ⟨hpos, hsz, hmask, harr, hlay, hemp, hcur⟩ := h
  have hlen : 0 < al.segments.length := by
    by_contra h0
    push_neg at h0
    have := hemp (by omega)
    omega
  obtain ⟨hcidx, hub, -, -⟩ := hcur hlen
  have hdivle : idx / al.segmentSize < al.segmentIdx + 1 :=
    (Nat.div_lt_iff_lt_mul hpos).mpr (by omega)
  have hdiv : idx / al.segmentSize < al.segments.length := by omega
  refine ⟨_, List.getElem?_eq_getElem hdiv, by omega, ?_⟩
  rw [harr _ (List.getElem_mem hdiv)]
  exact Nat.mod_lt _ hpos

/-- Under WF, Get succeeds on every index below count. -/
theorem ArrayList.Get_isSome {T : Type} {al : ArrayList T} (h : al.WF) {idx : Nat}
    (hidx : idx < al.count) : ∃ v, al.Get idx = some v := by
  obtain ⟨s, hs, -, hoff⟩ := h.pos_valid hidx
  refine ⟨s.arr.get ⟨idx % al.segmentSize, hoff⟩, ?_⟩
  unfold ArrayList.Get ArrayList.getPos
  rw [if_neg (by omega), h.shift_eq, h.mask_eq, hs]
  show s.arr[idx % al.segmentSize]? = some (s.arr.get ⟨idx % al.segmentSize, hoff⟩)
  rw [List.getElem?_eq_getElem hoff, List.get_eq_getElem]


/-- Extracting the value of a getElem? computation. -/
theorem getElem_eq_of_some {α : Type} {l : List α} {i : Nat} {a : α} (hi : i < l.length)
    (h : l[i]? = some a) : l[i] = a := by
  rw [List.getElem?_eq_getElem hi] at h
  injection h

/-- A successful setRef preserves well-formedness: only one slot value
changes, no count or structure. -/
theorem ArrayList.setRef_WF {T : Type} {al al' : ArrayList T} {idx : Nat} {v : T}
    (h : al.WF) (hset : al.setRef idx v = some al') : al'.WF := by
  obtain ⟨-, s, hs, hoff, rfl⟩ := ArrayList.setRef_shape hset
  obtain ⟨hpos, hsz, hmask, harr, hlay, hemp, hcur⟩ := h
  refine ⟨hpos, hsz, hmask, ?_, ?_, ?_, ?_⟩
  · intro t ht
    rcases List.mem_or_eq_of_mem_set ht with h1 | rfl
    · exact harr t h1
    · show (s.arr.set (idx &&& al.segmentSizeMask) v).length = al.segmentSize
      rw [List.length_set]
      exact harr s (List.getElem?_mem hs)
  · show ∀ pr ∈ (al.segments.set (idx >>> al.segmentSizeShift) { s with arr := s.arr.set (idx &&& al.segmentSizeMask) v }).enum, pr.2.count = min al.segmentSize (al.count - pr.1 * al.segmentSize)
    rw [List.forall_mem_enum]
    intro j hj
    have hj' : j < al.segments.length := by simpa using hj
    by_cases hij : (idx >>> al.segmentSizeShift) = j
    · subst hij
      have hq : (al.segments.set (idx >>> al.segmentSizeShift) { s with arr := s.arr.set (idx &&& al.segmentSizeMask) v })[idx >>> al.segmentSizeShift]? = some { s with arr := s.arr.set (idx &&& al.segmentSizeMask) v } :=
        List.getElem?_set_self hj'
      rw [getElem_eq_of_some hj hq]
      show s.count = min al.segmentSize (al.count - (idx >>> al.segmentSizeShift) * al.segmentSize)
      have h2 := List.forall_mem_enum.mp hlay _ hj'
      rw [getElem_eq_of_some hj' hs] at h2
      exact h2
    · have hq : (al.segments.set (idx >>> al.segmentSizeShift) { s with arr := s.arr.set (idx &&& al.segmentSizeMask) v })[j]? = al.segments[j]? :=
        List.getElem?_set_ne hij
      rw [getElem_eq_of_some hj (hq.trans (List.getElem?_eq_getElem hj'))]
      exact List.forall_mem_enum.mp hlay j hj'
  · intro h0
    rw [List.length_set] at h0
    exact hemp h0
  · intro h0
    rw [List.length_set] at h0
    have := hcur h0
    simpa using this

/-- Claiming the next slot of segment i succeeds and preserves the
invariant whenever segment i is the partial segment of the layout. -/
theorem ArrayList.allocInto_spec {T : Type} {al : ArrayList T} {segs : List (Segment T)} {i : Nat}
    (hc1 : 0 < al.segmentSize) (hc2 : al.segmentSize = 2 ^ al.segmentSizeShift)
    (hc3 : al.segmentSizeMask = al.segmentSize - 1)
    (hlen : ∀ t ∈ segs, t.arr.length = al.segmentSize)
    (hlay : ∀ pr ∈ segs.enum, pr.2.count = min al.segmentSize (al.count - pr.1 * al.segmentSize))
    (hilt : i < segs.length)
    (hstrict : al.count < (i + 1) * al.segmentSize)
    (hlb : i * al.segmentSize ≤ al.count)
    (hlen2 : segs.length ≤ i + 2) :
    ∃ al', al.allocInto segs i = some (al', i, al.count - i * al.segmentSize) ∧ al'.WF ∧
      al'.count = al.count + 1 ∧ al'.defaultValue = al.defaultValue ∧
      al'.segmentSize = al.segmentSize ∧ al'.segmentSizeMask = al.segmentSizeMask ∧
      al'.segmentSizeShift = al.segmentSizeShift ∧ al'.segmentIdx = i ∧
      al'.segments.length = segs.length := by
  have hsucc : (i + 1) * al.segmentSize = i * al.segmentSize + al.segmentSize := Nat.succ_mul _ _
  have hs : segs[i]? = some segs[i] := List.getElem?_eq_getElem hilt
  have hcnt : segs[i].count = min al.segmentSize (al.count - i * al.segmentSize) :=
    List.forall_mem_enum.mp hlay i hilt
  have hcnt2 : segs[i].count = al.count - i * al.segmentSize := by omega
  have harrlen : segs[i].arr.length = al.segmentSize := hlen _ (List.getElem_mem hilt)
  have hltc : segs[i].count < segs[i].arr.length := by omega
  refine ⟨{ al with segmentIdx := i, count := al.count + 1, segments := segs.set i { segs[i] with count := segs[i].count + 1 } }, ?_, ?_, rfl, rfl, rfl, rfl, rfl, rfl, by simp⟩
  · unfold ArrayList.allocInto
    split
    · rename_i hnone
      rw [hs] at hnone
      cases hnone
    · rename_i s hsome
      rw [hs] at hsome
      injection hsome with he
      subst he
      rw [if_pos hltc, hcnt2]
  · refine ⟨hc1, hc2, hc3, ?_, ?_, ?_, ?_⟩
    · intro t ht
      rcases List.mem_or_eq_of_mem_set ht with h1 | rfl
      · exact hlen t h1
      · exact harrlen
    · show ∀ pr ∈ (segs.set i { segs[i] with count := segs[i].count + 1 }).enum, pr.2.count = min al.segmentSize (al.count + 1 - pr.1 * al.segmentSize)
      rw [List.forall_mem_enum]
      intro j hj
      dsimp only
      have hj' : j < segs.length := by simpa using hj
      have hjsucc : (j + 1) * al.segmentSize = j * al.segmentSize + al.segmentSize :=
        Nat.succ_mul _ _
      by_cases hij : i = j
      · subst hij
        have hq : (segs.set i { segs[i] with count := segs[i].count + 1 })[i]? = some { segs[i] with count := segs[i].count + 1 } :=
          List.getElem?_set_self hj'
        rw [getElem_eq_of_some hj hq]
        show segs[i].count + 1 = min al.segmentSize (al.count + 1 - i * al.segmentSize)
        omega
      · have hq : (segs.set i { segs[i] with count := segs[i].count + 1 })[j]? = segs[j]? :=
          List.getElem?_set_ne hij
        rw [getElem_eq_of_some hj (hq.trans (List.getElem?_eq_getElem hj'))]
        have hcntj : segs[j].count = min al.segmentSize (al.count - j * al.segmentSize) :=
          List.forall_mem_enum.mp hlay j hj'
        rcases Nat.lt_or_ge j i with hji | hji
        · have hm : (j + 1) * al.segmentSize ≤ i * al.segmentSize :=
            Nat.mul_le_mul_right _ (by omega)
          omega
        · have hm : (i + 1) * al.segmentSize ≤ j * al.segmentSize :=
            Nat.mul_le_mul_right _ (by omega)
          omega
    · intro h0
      rw [List.length_set] at h0
      omega
    · intro h0
      refine ⟨by dsimp only; simpa using hilt, by dsimp only; omega,
        Or.inr (by dsimp only; omega), by dsimp only; simpa using hlen2⟩

/-- ArrayList.Alloc succeeds on every well-formed list, adds exactly one
element, and preserves the invariant and all constants. -/
theorem ArrayList.allocStep_spec {T : Type} {al : ArrayList T} (h : al.WF) :
    ∃ al' si off, al.allocStep = some (al', si, off) ∧ al'.WF ∧
      al'.count = al.count + 1 ∧ al'.defaultValue = al.defaultValue ∧
      al'.segmentSize = al.segmentSize ∧ al'.segmentSizeMask = al.segmentSizeMask ∧
      al'.segmentSizeShift = al.segmentSizeShift := by
  obtain ⟨hpos, hsz, hmask, harr, hlay, hemp, hcur⟩ := h
  by_cases hA : al.segments.length = 0
  · obtain ⟨hc0, hi0⟩ := hemp hA
    have hnil : al.segments = [] := List.length_eq_zero.mp hA
    have hstep : al.allocStep =
        al.allocInto ([] ++ [{ arr := List.replicate al.segmentSize al.defaultValue, count := 0 }]) 0 := by
      show (if al.segments.length = 0 then
          al.allocInto (al.segments ++ [{ arr := List.replicate al.segmentSize al.defaultValue, count := 0 }]) al.segmentIdx
        else _) = _
      rw [if_pos hA, hnil, hi0]
    obtain ⟨al', hcomp, hwf, hrest⟩ := @ArrayList.allocInto_spec T al ([] ++ [{ arr := List.replicate al.segmentSize al.defaultValue, count := 0 }]) 0 hpos hsz hmask
      (by intro t ht; simp at ht; subst ht; simp)
      (by rw [List.forall_mem_enum]
          intro j hj
          dsimp only
          simp at hj
          subst hj
          simp [hc0])
      (by simp)
      (by simpa [hc0] using hpos)
      (by simp)
      (by simp)
    exact ⟨al', 0, _, hstep.trans hcomp, hwf, hrest.1, hrest.2.1, hrest.2.2.1, hrest.2.2.2.1, hrest.2.2.2.2.1⟩
  · have hlen0 : 0 < al.segments.length := Nat.pos_of_ne_zero hA
    obtain ⟨hcidx, hub, hlbor, hlen2⟩ := hcur hlen0
    have hs0 : al.segments[al.segmentIdx]? = some al.segments[al.segmentIdx] :=
      List.getElem?_eq_getElem hcidx
    have hcnt0 : al.segments[al.segmentIdx].count =
        min al.segmentSize (al.count - al.segmentIdx * al.segmentSize) :=
      List.forall_mem_enum.mp hlay _ hcidx
    have hsucc : (al.segmentIdx + 1) * al.segmentSize =
        al.segmentIdx * al.segmentSize + al.segmentSize := Nat.succ_mul _ _
    have hlb : al.segmentIdx * al.segmentSize ≤ al.count := by
      rcases hlbor with ⟨h1, h2⟩ | h3
      · rw [h2, Nat.zero_mul]
        omega
      · omega
    by_cases hfull : al.segments[al.segmentIdx].count = al.segmentSize
    · have hceq : al.count = (al.segmentIdx + 1) * al.segmentSize := by omega
      by_cases hlast : al.segmentIdx = al.segments.length - 1
      · have hstep : al.allocStep =
            al.allocInto (al.segments ++ [{ arr := List.replicate al.segmentSize al.defaultValue, count := 0 }]) (al.segmentIdx + 1) := by
          show (if al.segments.length = 0 then
              al.allocInto (al.segments ++ [{ arr := List.replicate al.segmentSize al.defaultValue, count := 0 }]) al.segmentIdx
            else match al.segments[al.segmentIdx]? with
              | none => none
              | some s =>
                if s.count = al.segmentSize then
                  if al.segmentIdx = al.segments.length - 1 then
                    al.allocInto (al.segments ++ [{ arr := List.replicate al.segmentSize al.defaultValue, count := 0 }]) (al.segmentIdx + 1)
                  else
                    al.allocInto al.segments (al.segmentIdx + 1)
                else
                  al.allocInto al.segments al.segmentIdx) = _
          rw [if_neg hA]
          split
          · rename_i hnone
            rw [hs0] at hnone
            cases hnone
          · rename_i s hsome
            rw [hs0] at hsome
            injection hsome with he
            subst he
            rw [if_pos hfull, if_pos hlast]
        have hmlen : al.segments.length * al.segmentSize = (al.segmentIdx + 1) * al.segmentSize := by
          rw [show al.segments.length = al.segmentIdx + 1 by omega]
        have hsucc2 : (al.segmentIdx + 1 + 1) * al.segmentSize =
            (al.segmentIdx + 1) * al.segmentSize + al.segmentSize := Nat.succ_mul _ _
        obtain ⟨al', hcomp, hwf, hrest⟩ := @ArrayList.allocInto_spec T al
          (al.segments ++ [{ arr := List.replicate al.segmentSize al.defaultValue, count := 0 }])
          (al.segmentIdx + 1) hpos hsz hmask
          (by intro t ht
              rcases List.mem_append.mp ht with h1 | h2
              · exact harr t h1
              · simp at h2
                subst h2
                simp)
          (by rw [List.forall_mem_enum]
              intro j hj
              dsimp only
              have hj2 : j < al.segments.length + 1 := by simpa using hj
              rcases Nat.lt_or_ge j al.segments.length with hjl | hjl
              · have hq : (al.segments ++ [{ arr := List.replicate al.segmentSize al.defaultValue, count := 0 }])[j]? = al.segments[j]? :=
                  List.getElem?_append_left hjl
                rw [getElem_eq_of_some hj (hq.trans (List.getElem?_eq_getElem hjl))]
                exact List.forall_mem_enum.mp hlay j hjl
              · have hjeq : j = al.segments.length := by omega
                subst hjeq
                have hq : (al.segments ++ [{ arr := List.replicate al.segmentSize al.defaultValue, count := 0 }])[al.segments.length]? = some { arr := List.replicate al.segmentSize al.defaultValue, count := 0 } :=
                  List.getElem?_concat_length _ _
                rw [getElem_eq_of_some hj hq]
                show 0 = min al.segmentSize (al.count - al.segments.length * al.segmentSize)
                omega)
          (by simp
              omega)
          (by omega)
          (by omega)
          (by simp
              omega)
        exact ⟨al', _, _, hstep.trans hcomp, hwf, hrest.1, hrest.2.1, hrest.2.2.1, hrest.2.2.2.1, hrest.2.2.2.2.1⟩
      · have hlenq : al.segments.length = al.segmentIdx + 2 := by omega
        have hstep : al.allocStep = al.allocInto al.segments (al.segmentIdx + 1) := by
          show (if al.segments.length = 0 then
              al.allocInto (al.segments ++ [{ arr := List.replicate al.segmentSize al.defaultValue, count := 0 }]) al.segmentIdx
            else match al.segments[al.segmentIdx]? with
              | none => none
              | some s =>
                if s.count = al.segmentSize then
                  if al.segmentIdx = al.segments.length - 1 then
                    al.allocInto (al.segments ++ [{ arr := List.replicate al.segmentSize al.defaultValue, count := 0 }]) (al.segmentIdx + 1)
                  else
                    al.allocInto al.segments (al.segmentIdx + 1)
                else
                  al.allocInto al.segments al.segmentIdx) = _
          rw [if_neg hA]
          split
          · rename_i hnone
            rw [hs0] at hnone
            cases hnone
          · rename_i s hsome
            rw [hs0] at hsome
            injection hsome with he
            subst he
            rw [if_pos hfull, if_neg hlast]
        have hsucc2 : (al.segmentIdx + 1 + 1) * al.segmentSize =
            (al.segmentIdx + 1) * al.segmentSize + al.segmentSize := Nat.succ_mul _ _
        obtain ⟨al', hcomp, hwf, hrest⟩ := @ArrayList.allocInto_spec T al
          al.segments (al.segmentIdx + 1) hpos hsz hmask harr hlay
          (by omega) (by omega) (by omega) (by omega)
        exact ⟨al', _, _, hstep.trans hcomp, hwf, hrest.1, hrest.2.1, hrest.2.2.1, hrest.2.2.2.1, hrest.2.2.2.2.1⟩
    · have hstep : al.allocStep = al.allocInto al.segments al.segmentIdx := by
        show (if al.segments.length = 0 then
            al.allocInto (al.segments ++ [{ arr := List.replicate al.segmentSize al.defaultValue, count := 0 }]) al.segmentIdx
          else match al.segments[al.segmentIdx]? with
            | none => none
            | some s =>
              if s.count = al.segmentSize then
                if al.segmentIdx = al.segments.length - 1 then
                  al.allocInto (al.segments ++ [{ arr := List.replicate al.segmentSize al.defaultValue, count := 0 }]) (al.segmentIdx + 1)
                else
                  al.allocInto al.segments (al.segmentIdx + 1)
              else
                al.allocInto al.segments al.segmentIdx) = _
        rw [if_neg hA]
        split
        · rename_i hnone
          rw [hs0] at hnone
          cases hnone
        · rename_i s hsome
          rw [hs0] at hsome
          injection hsome with he
          subst he
          rw [if_neg hfull]
      obtain ⟨al', hcomp, hwf, hrest⟩ := @ArrayList.allocInto_spec T al
        al.segments al.segmentIdx hpos hsz hmask harr hlay
        hcidx (by omega) hlb hlen2
      exact ⟨al', _, _, hstep.trans hcomp, hwf, hrest.1, hrest.2.1, hrest.2.2.1, hrest.2.2.2.1, hrest.2.2.2.2.1⟩

/-- Under WF, writing through GetRef succeeds below count and the write is
read back by Get. -/
theorem ArrayList.setRef_spec {T : Type} {al : ArrayList T} (hwf : al.WF) {idx : Nat}
    (hidx : idx < al.count) (v : T) :
    ∃ al', al.setRef idx v = some al' ∧ al'.Get idx = some v := by
  obtain ⟨s, hs, -, hoff⟩ := hwf.pos_valid hidx
  have hs' : al.segments[idx >>> al.segmentSizeShift]? = some s := by
    rw [hwf.shift_eq]
    exact hs
  have hoff' : (idx &&& al.segmentSizeMask) < s.arr.length := by
    rw [hwf.mask_eq]
    exact hoff
  have hjlt : (idx >>> al.segmentSizeShift) < al.segments.length :=
    (List.getElem?_eq_some_iff.mp hs').1
  refine ⟨{ al with segments := al.segments.set (idx >>> al.segmentSizeShift) { s with arr := s.arr.set (idx &&& al.segmentSizeMask) v } }, ?_, ?_⟩
  · unfold ArrayList.setRef ArrayList.setPos
    rw [if_neg (by omega)]
    split
    · rename_i hnone
      rw [hs'] at hnone
      cases hnone
    · rename_i t hsome
      rw [hs'] at hsome
      injection hsome with he
      subst he
      rw [if_pos hoff']
  · unfold ArrayList.Get ArrayList.getPos
    rw [if_neg (by dsimp only; omega)]
    dsimp only
    have hq : (al.segments.set (idx >>> al.segmentSizeShift) { s with arr := s.arr.set (idx &&& al.segmentSizeMask) v })[idx >>> al.segmentSizeShift]? = some { s with arr := s.arr.set (idx &&& al.segmentSizeMask) v } :=
      List.getElem?_set_self hjlt
    split
    · rename_i hnone
      rw [hq] at hnone
      cases hnone
    · rename_i t hsome
      rw [hq] at hsome
      injection hsome with he
      subst he
      dsimp only
      exact List.getElem?_set_self hoff'

/-- Pool.Alloc on a non-empty free set removes and returns the selected
member and leaves the item store untouched. -/
theorem Pool.Alloc_frees_spec {T : Type} {p : Pool T} (k : Nat)
    (hne : 0 < p.frees.length)
    (hall : ∀ i ∈ p.frees, i < p.items.count) (hwf : p.items.WF) :
    ∃ id p', p.Alloc k = some (id, p') ∧ id ∈ p.frees ∧
      List.Perm (id :: p'.frees) p.frees ∧ p'.items = p.items ∧
      p'.frees = p.frees.eraseIdx (k % p.frees.length) := by
  have hid := List.get_mem p.frees (k % p.frees.length) (Nat.mod_lt _ hne)
  obtain ⟨v, hv⟩ := ArrayList.Get_isSome hwf (hall _ hid)
  refine ⟨p.frees.get ⟨k % p.frees.length, Nat.mod_lt _ hne⟩,
    { p with frees := p.frees.eraseIdx (k % p.frees.length) }, ?_, hid,
    perm_get_cons_eraseIdx _ _ _, rfl, rfl⟩
  unfold Pool.Alloc
  rw [dif_pos hne]
  dsimp only
  split
  · rfl
  · rename_i hnone
    rw [hv] at hnone
    cases hnone

/-- Pool.Alloc on an empty free set returns the next tail index and
allocates a fresh slot. -/
theorem Pool.Alloc_fresh_spec {T : Type} {p : Pool T} (k : Nat)
    (hempty : p.frees = []) (hwf : p.items.WF) :
    ∃ p', p.Alloc k = some (p.items.count, p') ∧ p'.frees = [] ∧ p'.items.WF ∧
      p'.items.count = p.items.count + 1 ∧
      p'.items.defaultValue = p.items.defaultValue ∧
      p'.items.segmentSize = p.items.segmentSize := by
  obtain ⟨al', si, off, hcomp, hwf', hcnt, hdef, hsz, hrest⟩ := ArrayList.allocStep_spec hwf
  refine ⟨{ p with items := al' }, ?_, by simpa using hempty, hwf', hcnt, hdef, hsz⟩
  unfold Pool.Alloc
  rw [dif_neg (by simp [hempty])]
  split
  · rename_i hnone
    rw [hcomp] at hnone
    cases hnone
  · rename_i a b c hsome
    rw [hcomp] at hsome
    injection hsome with he
    injection he with h1 h2
    subst h1
    rfl

/-- Pool.Free on a valid live id resets its slot to the default value and
records it as free. -/
theorem Pool.Free_spec {T : Type} {p : Pool T} {id : Nat}
    (hlt : id < p.items.count) (hnotin : id ∉ p.frees) (hwf : p.items.WF) :
    ∃ p', p.Free (id : Int) = some p' ∧
      p'.frees = id :: p.frees ∧ p'.items.count = p.items.count ∧ p'.items.WF ∧
      p'.items.Get id = some p.items.defaultValue ∧
      p'.items.defaultValue = p.items.defaultValue := by
  obtain ⟨al', hset, hget⟩ := ArrayList.setRef_spec hwf hlt p.items.defaultValue
  have hfields := ArrayList.setRef_fields hset
  have hwf' := ArrayList.setRef_WF hwf hset
  refine ⟨{ p with items := al', frees := id :: p.frees }, ?_, rfl, hfields.1, hwf', hget, hfields.2.1⟩
  unfold Pool.Free
  rw [if_neg (by omega), if_neg (by simpa using hnotin)]
  split
  · rename_i hnone
    rw [show ((id : Int)).toNat = id from Int.toNat_ofNat id, hset] at hnone
    cases hnone
  · rename_i t hsome
    rw [show ((id : Int)).toNat = id from Int.toNat_ofNat id, hset] at hsome
    injection hsome with he
    rw [← he]
    rfl

/-- From an empty free set, iterated Alloc hands out consecutive tail
indices. -/
theorem Pool.allocSeq_fresh {T : Type} :
    ∀ (picks : List Nat) (p : Pool T), p.frees = [] → p.items.WF →
    ∃ p', p.allocSeq picks = some (List.range' p.items.count picks.length, p') ∧
      p'.frees = [] ∧ p'.items.WF ∧ p'.items.count = p.items.count + picks.length ∧
      p'.items.defaultValue = p.items.defaultValue
  | [], p, hempty, hwf => ⟨p, rfl, hempty, hwf, rfl, rfl⟩
  | k :: ks, p, hempty, hwf => by
    obtain ⟨p1, hstep, hf1, hwf1, hcnt1, hdef1, -⟩ := Pool.Alloc_fresh_spec k hempty hwf
    obtain ⟨p', hseq, hf, hwf2, hcnt, hdef⟩ := Pool.allocSeq_fresh ks p1 hf1 hwf1
    refine ⟨p', ?_, hf, hwf2, by simp only [List.length_cons]; omega, by rw [hdef, hdef1]⟩
    simp only [Pool.allocSeq]
    split
    · rename_i hnone
      rw [hstep] at hnone
      cases hnone
    · rename_i id p2 hsome
      rw [hstep] at hsome
      injection hsome with he
      injection he with he1 he2
      subst he1
      subst he2
      split
      · rename_i hnone2
        rw [hseq] at hnone2
        cases hnone2
      · rename_i ids p3 hsome2
        rw [hseq] at hsome2
        injection hsome2 with he
        injection he with he1 he2
        subst he1
        subst he2
        rw [hcnt1]
        rfl

/-- Freeing a list of distinct valid live ids adds exactly those ids to the
free set and changes nothing else observable. -/
theorem Pool.freeSeq_spec {T : Type} :
    ∀ (ids : List Nat) (p : Pool T),
      (∀ i ∈ ids, i < p.items.count) → ids.Nodup → (∀ i ∈ ids, i ∉ p.frees) →
      p.items.WF →
      ∃ p', p.freeSeq (ids.map Int.ofNat) = some p' ∧
        p'.items.count = p.items.count ∧ p'.items.WF ∧
        List.Perm p'.frees (ids ++ p.frees) ∧
        p'.items.defaultValue = p.items.defaultValue
  | [], p, _, _, _, hwf => ⟨p, rfl, rfl, hwf, List.Perm.refl _, rfl⟩
  | id :: rest, p, hall, hnodup, hdisj, hwf => by
    obtain ⟨p1, hfree, hf1, hcnt1, hwf1, hget1, hdef1⟩ :=
      Pool.Free_spec (hall id (by simp)) (hdisj id (by simp)) hwf
    have hidrest : id ∉ rest := (List.nodup_cons.mp hnodup).1
    obtain ⟨p', hseq, hcnt, hwf2, hperm, hdef⟩ := Pool.freeSeq_spec rest p1
      (by intro i hi
          rw [hcnt1]
          exact hall i (by simp [hi]))
      (List.Nodup.of_cons hnodup)
      (by intro i hi
          rw [hf1]
          simp only [List.mem_cons]
          rintro (rfl | hmem)
          · exact hidrest hi
          · exact hdisj i (by simp [hi]) hmem)
      hwf1
    refine ⟨p', ?_, by omega, hwf2, ?_, by rw [hdef, hdef1]⟩
    · simp only [List.map_cons, Pool.freeSeq]
      split
      · rename_i hnone
        exact Option.noConfusion (hfree.symm.trans hnone)
      · rename_i q hsome
        have hq : some p1 = some q := hfree.symm.trans hsome
        injection hq with he
        subst he
        exact hseq
    · rw [hf1] at hperm
      exact hperm.trans List.perm_middle

/-- With the free set non-empty, iterated Alloc drains it completely,
returning exactly its members. -/
theorem Pool.allocSeq_drain {T : Type} :
    ∀ (picks : List Nat) (p : Pool T),
      p.items.WF → (∀ i ∈ p.frees, i < p.items.count) →
      picks.length = p.frees.length →
      ∃ ids p', p.allocSeq picks = some (ids, p') ∧ List.Perm ids p.frees ∧
        p'.items = p.items ∧ p'.frees = []
  | [], p, hwf, hall, hlen => by
    have hnil : p.frees = [] := List.length_eq_zero.mp (by simpa using hlen.symm)
    exact ⟨[], p, rfl, by rw [hnil], rfl, hnil⟩
  | k :: ks, p, hwf, hall, hlen => by
    have hne : 0 < p.frees.length := by
      simp at hlen
      omega
    obtain ⟨id, p1, halloc, hmem, hperm1, hitems1, hfrees1⟩ :=
      Pool.Alloc_frees_spec k hne hall hwf
    obtain ⟨ids, p', hseq, hperm, hitems, hfrees⟩ := Pool.allocSeq_drain ks p1
      (by rw [hitems1]; exact hwf)
      (by intro i hi
          rw [hitems1]
          apply hall
          rw [hfrees1] at hi
          exact List.mem_of_mem_eraseIdx hi)
      (by have h2 := hperm1.length_eq
          simp at h2 hlen
          omega)
    refine ⟨id :: ids, p', ?_, (List.Perm.cons id hperm).trans hperm1, hitems.trans hitems1, hfrees⟩
    simp only [Pool.allocSeq]
    split
    · rename_i hnone
      rw [halloc] at hnone
      cases hnone
    · rename_i id2 p2 hsome
      rw [halloc] at hsome
      injection hsome with he
      injection he with he1 he2
      subst he1
      subst he2
      split
      · rename_i hnone2
        rw [hseq] at hnone2
        cases hnone2
      · rename_i ids2 p3 hsome2
        rw [hseq] at hsome2
        injection hsome2 with he
        injection he with he1 he2
        subst he1
        subst he2
        rfl

/-! ### C1: reset on free -/

/-- C1: after release of a valid live id, reading the slot returns the
default/zero value: the segmented pool writes defaultValue into the slot,
and the contiguous pool copies the sentinel arr[0] into the slot on every
non-fatal release path. -/
theorem c1_reset_on_free {T : Type} (id : Int) :
    (∀ (p : Pool T), p.items.WF → 0 ≤ id → id < (p.items.count : Int) →
      id.toNat ∉ p.frees →
      ∃ p', p.Free id = some p' ∧ p'.items.Get id.toNat = some p.items.defaultValue) ∧
    (∀ (ap : ArrayPool T) (d : T), ap.arr[0]? = some d → ap.alloc ≤ ap.arr.length →
      0 < id → id < (ap.alloc : Int) →
      ∃ ap', ap.Free id = Except.ok ap' ∧ ap'.arr[id.toNat]? = some d) := by
  constructor
  · intro p hwf h0 hlt hnotin
    have hlt2 : id.toNat < p.items.count := by omega
    obtain ⟨p', hfree, hfrees, hcnt, hwf', hget, hdef⟩ := Pool.Free_spec hlt2 hnotin hwf
    rw [show ((id.toNat : Nat) : Int) = id from Int.toNat_of_nonneg h0] at hfree
    exact ⟨p', hfree, hget⟩
  · intro ap d h0arr hlen hpos hlt
    have hid : id.toNat < ap.arr.length := by omega
    have hsent : ap.arr.get ⟨0, Nat.lt_of_le_of_lt (Nat.zero_le _) hid⟩ = d := by
      rw [List.get_eq_getElem]
      exact getElem_eq_of_some (by omega) h0arr
    unfold ArrayPool.Free
    rw [if_neg (by omega), dif_pos hid]
    split
    · refine ⟨_, rfl, ?_⟩
      show (ap.arr.set id.toNat (ap.arr.get ⟨0, Nat.lt_of_le_of_lt (Nat.zero_le _) hid⟩))[id.toNat]? = some d
      rw [hsent]
      exact List.getElem?_set_self hid
    · split
      · refine ⟨_, rfl, ?_⟩
        show (ap.arr.set id.toNat (ap.arr.get ⟨0, Nat.lt_of_le_of_lt (Nat.zero_le _) hid⟩))[id.toNat]? = some d
        rw [hsent]
        exact List.getElem?_set_self hid
      · refine ⟨_, rfl, ?_⟩
        show (ap.arr.set id.toNat (ap.arr.get ⟨0, Nat.lt_of_le_of_lt (Nat.zero_le _) hid⟩))[id.toNat]? = some d
        rw [hsent]
        exact List.getElem?_set_self hid

theorem c1_reset_on_free_witness :
    (∃ p', Pool.Free (⟨[], ⟨0, 1, [⟨[5, 0, 0, 0], 1⟩], 0, 4, 3, 2⟩⟩ : Pool Nat) 0 = some p' ∧
      p'.items.Get 0 = some 0) ∧
    (∃ ap', ArrayPool.Free (⟨[0, 5, 0], 2, []⟩ : ArrayPool Nat) 1 = Except.ok ap' ∧
      ap'.arr[1]? = some 0) := by
  constructor
  · exact (@c1_reset_on_free Nat 0).1 ⟨[], ⟨0, 1, [⟨[5, 0, 0, 0], 1⟩], 0, 4, 3, 2⟩⟩
      (by decide) (by decide) (by decide) (by decide)
  · exact (@c1_reset_on_free Nat 1).2 ⟨[0, 5, 0], 2, []⟩ 0 (by decide) (by decide)
      (by decide) (by decide)

/-! ### C2: segmented pool allocation order -/

/-- C2: the segmented pool's Alloc removes and returns a member of the free
set whenever it is non-empty (leaving the item store untouched), and only
with an empty free set does it return the current count as a fresh tail
index; concretely, after allocating ids 0..34 (segment size 3) and freeing
9 of them, the next Alloc returns one of the 9 freed ids and Count is 27. -/
theorem c2_alloc_order {T : Type} (p : Pool T) (k : Nat) :
    (0 < p.frees.length → (∀ i ∈ p.frees, i < p.items.count) → p.items.WF →
      ∃ id p', p.Alloc k = some (id, p') ∧ id ∈ p.frees ∧
        List.Perm (id :: p'.frees) p.frees ∧ p'.items = p.items) ∧
    (p.frees = [] → p.items.WF →
      ∃ p', p.Alloc k = some (p.items.count, p') ∧ p'.frees = [] ∧
        p'.items.count = p.items.count + 1) ∧
    (∃ p1, Pool.allocSeq (NewPool (0 : Nat) 3) (List.replicate 35 0) = some (List.range 35, p1) ∧
      ∃ p2, Pool.freeSeq p1 [0, 4, 34, 27, 3, 16, 11, 12, 8] = some p2 ∧
        ∀ j, ∃ id p3, p2.Alloc j = some (id, p3) ∧
          id ∈ [0, 4, 34, 27, 3, 16, 11, 12, 8] ∧ p3.Count = 27) := by
  refine ⟨?_, ?_, ?_⟩
  · intro hne hall hwf
    obtain ⟨id, p', h1, h2, h3, h4, -⟩ := Pool.Alloc_frees_spec k hne hall hwf
    exact ⟨id, p', h1, h2, h3, h4⟩
  · intro hempty hwf
    obtain ⟨p', h1, h2, h3, h4, -⟩ := Pool.Alloc_fresh_spec k hempty hwf
    exact ⟨p', h1, h2, h4⟩
  · have hwf0 : (NewPool (0 : Nat) 3).items.WF := NewArrayList_WF 0 3 (by norm_num)
    obtain ⟨p1, hseq1, hf1, hwf1, hcnt1, -⟩ :=
      Pool.allocSeq_fresh (List.replicate 35 0) (NewPool (0 : Nat) 3) rfl hwf0
    have e1 : List.range' (NewPool (0 : Nat) 3).items.count (List.replicate 35 0).length =
        List.range 35 := by
      rw [show (NewPool (0 : Nat) 3).items.count = 0 from rfl, ← List.range_eq_range']
      simp
    rw [e1] at hseq1
    have hcnt1b : p1.items.count = 35 := by simpa using hcnt1
    obtain ⟨p2, hseq2, hcnt2, hwf2, hperm2, -⟩ :=
      Pool.freeSeq_spec [0, 4, 34, 27, 3, 16, 11, 12, 8] p1
        (by intro i hi
            rw [hcnt1b]
            simp at hi
            omega)
        (by decide)
        (by intro i hi
            rw [hf1]
            simp)
        hwf1
    refine ⟨p1, hseq1, p2, ?_, ?_⟩
    · exact hseq2
    · intro j
      have hlen2 : p2.frees.length = 9 := by
        have h2 := hperm2.length_eq
        rw [hf1] at h2
        simpa using h2
      obtain ⟨id, p3, h1, h2, h3, h4, -⟩ := Pool.Alloc_frees_spec j (by omega)
        (by intro i hi
            have hm : i ∈ ([0, 4, 34, 27, 3, 16, 11, 12, 8] : List Nat) ++ p1.frees :=
              hperm2.mem_iff.mp hi
            rw [hf1] at hm
            simp at hm
            rw [hcnt2, hcnt1b]
            omega)
        hwf2
      refine ⟨id, p3, h1, ?_, ?_⟩
      · have hm : id ∈ ([0, 4, 34, 27, 3, 16, 11, 12, 8] : List Nat) ++ p1.frees :=
          hperm2.mem_iff.mp h2
        rw [hf1] at hm
        simpa using hm
      · have hl := h3.length_eq
        simp at hl
        unfold Pool.Count
        rw [h4, hcnt2, hcnt1b]
        omega

theorem c2_alloc_order_witness :
    (∃ id p', Pool.Alloc (⟨[0], ⟨0, 1, [⟨[5, 0, 0, 0], 1⟩], 0, 4, 3, 2⟩⟩ : Pool Nat) 0 =
        some (id, p') ∧
      id ∈ (⟨[0], ⟨0, 1, [⟨[5, 0, 0, 0], 1⟩], 0, 4, 3, 2⟩⟩ : Pool Nat).frees ∧
      List.Perm (id :: p'.frees) [0] ∧
      p'.items = (⟨0, 1, [⟨[5, 0, 0, 0], 1⟩], 0, 4, 3, 2⟩ : ArrayList Nat)) ∧
    (∃ p', Pool.Alloc (NewPool (0 : Nat) 4) 0 = some ((NewPool (0 : Nat) 4).items.count, p') ∧
      p'.frees = [] ∧ p'.items.count = (NewPool (0 : Nat) 4).items.count + 1) := by
  constructor
  · exact (c2_alloc_order (⟨[0], ⟨0, 1, [⟨[5, 0, 0, 0], 1⟩], 0, 4, 3, 2⟩⟩ : Pool Nat) 0).1
      (by decide) (by decide) (by decide)
  · exact (c2_alloc_order (NewPool (0 : Nat) 4) 0).2.1 rfl (by decide)

/-! ### C4 (amended): round-trip reuse, segmented variant -/

/-- C4 amended: for the segmented pool and every N, allocating N handles
from a fresh pool, freeing all N in any order, and allocating N again
yields the same set of indices (order may differ, pick choices arbitrary).
The contiguous variant does not satisfy this, see the counterexample. -/
theorem c4_roundtrip_segmented {T : Type} (d : T) (s : Int) (N : Nat)
    (picks1 picks2 : List Nat) (order : List Nat)
    (hs : s ≤ 2 ^ 32) (h1 : picks1.length = N) (h2 : picks2.length = N)
    (horder : List.Perm order (List.range N)) :
    ∃ p1 p2 ids2 p3,
      Pool.allocSeq (NewPool d s) picks1 = some (List.range N, p1) ∧
      Pool.freeSeq p1 (order.map Int.ofNat) = some p2 ∧
      Pool.allocSeq p2 picks2 = some (ids2, p3) ∧
      List.Perm ids2 (List.range N) := by
  have hwf0 : (NewPool d s).items.WF := NewArrayList_WF d s hs
  obtain ⟨p1, hseq1, hf1, hwf1, hcnt1, -⟩ :=
    Pool.allocSeq_fresh picks1 (NewPool d s) rfl hwf0
  have e1 : List.range' (NewPool d s).items.count picks1.length = List.range N := by
    rw [show (NewPool d s).items.count = 0 from rfl, ← List.range_eq_range', h1]
  rw [e1] at hseq1
  have hcnt1b : p1.items.count = N := by
    rw [hcnt1, show (NewPool d s).items.count = 0 from rfl, h1]
    exact Nat.zero_add N
  obtain ⟨p2, hseq2, hcnt2, hwf2, hperm2, -⟩ := Pool.freeSeq_spec order p1
    (by intro i hi
        have hm : i ∈ List.range N := horder.mem_iff.mp hi
        rw [hcnt1b]
        simpa using hm)
    (horder.nodup_iff.mpr (List.nodup_range N))
    (by intro i hi
        rw [hf1]
        simp)
    hwf1
  have hperm2b : List.Perm p2.frees order := by
    rw [hf1] at hperm2
    simpa using hperm2
  obtain ⟨ids2, p3, hseq3, hperm3, hitems3, hfrees3⟩ := Pool.allocSeq_drain picks2 p2
    hwf2
    (by intro i hi
        have hm : i ∈ List.range N := horder.mem_iff.mp (hperm2b.mem_iff.mp hi)
        rw [hcnt2, hcnt1b]
        simpa using hm)
    (by have hl1 := hperm2b.length_eq
        have hl2 := horder.length_eq
        simp at hl2
        omega)
  exact ⟨p1, p2, ids2, p3, hseq1, hseq2, hseq3, hperm3.trans (hperm2b.trans horder)⟩

theorem c4_roundtrip_segmented_witness :
    ∃ p1 p2 ids2 p3,
      Pool.allocSeq (NewPool (0 : Nat) 4) [0, 0] = some (List.range 2, p1) ∧
      Pool.freeSeq p1 ([1, 0].map Int.ofNat) = some p2 ∧
      Pool.allocSeq p2 [0, 0] = some (ids2, p3) ∧
      List.Perm ids2 (List.range 2) :=
  c4_roundtrip_segmented 0 4 2 [0, 0] [0, 0] [1, 0] (by norm_num) rfl rfl (by decide)

/-! ### C7: segmented index mapping -/

/-- C7: Get/GetRef fail with an out-of-range condition when index >= count;
for every index below count they address the slot at segment
index >> segmentShift, offset index & segmentMask (which are division and
remainder by the segment size); concretely, with segment size 4 and 5
elements, index 4 resides in the second segment at offset 0. -/
theorem c7_segment_index_mapping {T : Type} (al : ArrayList T) (idx : Nat) :
    (al.count ≤ idx → al.Get idx = none ∧ al.GetRef idx = none) ∧
    (al.WF → idx < al.count →
      al.GetRef idx = some (idx >>> al.segmentSizeShift, idx &&& al.segmentSizeMask) ∧
      idx >>> al.segmentSizeShift = idx / al.segmentSize ∧
      idx &&& al.segmentSizeMask = idx % al.segmentSize ∧
      ∃ v, al.Get idx = some v) ∧
    (∃ al5 : ArrayList Nat,
      (((((NewArrayList (0 : Nat) 4).Add 1).bind (fun a => a.Add 2)).bind
          (fun a => a.Add 3)).bind (fun a => a.Add 4)).bind (fun a => a.Add 5) = some al5 ∧
      al5.count = 5 ∧ al5.segments.length = 2 ∧
      4 >>> al5.segmentSizeShift = 1 ∧ 4 &&& al5.segmentSizeMask = 0 ∧
      al5.GetRef 4 = some (1, 0) ∧ al5.Get 4 = some 5) := by
  refine ⟨?_, ?_, ?_⟩
  · intro h
    constructor
    · unfold ArrayList.Get
      rw [if_pos h]
    · unfold ArrayList.GetRef
      rw [if_pos h]
  · intro hwf hlt
    obtain ⟨s, hs, -, hoff⟩ := hwf.pos_valid hlt
    have hs2 : al.segments[idx >>> al.segmentSizeShift]? = some s := by
      rw [hwf.shift_eq]
      exact hs
    have hoff2 : (idx &&& al.segmentSizeMask) < s.arr.length := by
      rw [hwf.mask_eq]
      exact hoff
    refine ⟨?_, hwf.shift_eq idx, hwf.mask_eq idx, ArrayList.Get_isSome hwf hlt⟩
    unfold ArrayList.GetRef
    rw [if_neg (by omega)]
    split
    · rename_i hnone
      rw [hs2] at hnone
      cases hnone
    · rename_i t hsome
      rw [hs2] at hsome
      injection hsome with he
      subst he
      rw [if_pos hoff2]
  · exact ⟨⟨0, 5, [⟨[1, 2, 3, 4], 4⟩, ⟨[5, 0, 0, 0], 1⟩], 1, 4, 3, 2⟩, by decide, by decide,
      by decide, by decide, by decide, by decide, by decide⟩

theorem c7_segment_index_mapping_witness :
    ((⟨0, 5, [⟨[1, 2, 3, 4], 4⟩, ⟨[5, 0, 0, 0], 1⟩], 1, 4, 3, 2⟩ : ArrayList Nat).Get 7 = none ∧
      (⟨0, 5, [⟨[1, 2, 3, 4], 4⟩, ⟨[5, 0, 0, 0], 1⟩], 1, 4, 3, 2⟩ : ArrayList Nat).GetRef 7 = none) ∧
    ((⟨0, 5, [⟨[1, 2, 3, 4], 4⟩, ⟨[5, 0, 0, 0], 1⟩], 1, 4, 3, 2⟩ : ArrayList Nat).GetRef 4 =
      some (4 >>> 2, 4 &&& 3) ∧
      ∃ v, (⟨0, 5, [⟨[1, 2, 3, 4], 4⟩, ⟨[5, 0, 0, 0], 1⟩], 1, 4, 3, 2⟩ : ArrayList Nat).Get 4 = some v) := by
  constructor
  · exact (c7_segment_index_mapping (⟨0, 5, [⟨[1, 2, 3, 4], 4⟩, ⟨[5, 0, 0, 0], 1⟩], 1, 4, 3, 2⟩ : ArrayList Nat) 7).1 (by decide)
  · obtain ⟨h1, -, -, h4⟩ := (c7_segment_index_mapping (⟨0, 5, [⟨[1, 2, 3, 4], 4⟩, ⟨[5, 0, 0, 0], 1⟩], 1, 4, 3, 2⟩ : ArrayList Nat) 4).2.1 (by decide) (by decide)
    exact ⟨h1, h4⟩

/-! ### C8: shrink policy of RemoveLast -/

/-- C8 counterexample: in the reachable state below (segment size 2, three
segments, cursor on segment 1 holding one element), RemoveLast drains the
cursor segment; the cursor retreats to 0, but the segment dropped is the
one at old cursor + 1 = 2, NOT the segment immediately after the new
cursor: segment 1 is retained with its array intact, and the list still has
length 2 where the claim as stated would require it to be truncated to
length 1. -/
theorem c8_shrink_counterexample :
    ArrayList.WF (⟨0, 3, [⟨[1, 2], 2⟩, ⟨[3, 4], 1⟩, ⟨[5, 0], 0⟩], 1, 2, 1, 1⟩ : ArrayList Nat) ∧
    (((((((NewArrayList (0 : Nat) 2).Add 1).bind (fun a => a.Add 2)).bind
        (fun a => a.Add 3)).bind (fun a => a.Add 4)).bind (fun a => a.Add 5)).bind
        ArrayList.RemoveLast).bind ArrayList.RemoveLast =
      some (⟨0, 3, [⟨[1, 2], 2⟩, ⟨[3, 4], 1⟩, ⟨[5, 0], 0⟩], 1, 2, 1, 1⟩ : ArrayList Nat) ∧
    ArrayList.RemoveLast (⟨0, 3, [⟨[1, 2], 2⟩, ⟨[3, 4], 1⟩, ⟨[5, 0], 0⟩], 1, 2, 1, 1⟩ : ArrayList Nat) =
      some ⟨0, 2, [⟨[1, 2], 2⟩, ⟨[3, 4], 0⟩], 0, 2, 1, 1⟩ ∧
    (⟨0, 2, [⟨[1, 2], 2⟩, ⟨[3, 4], 0⟩], 0, 2, 1, 1⟩ : ArrayList Nat).segmentIdx = 0 ∧
    (⟨0, 2, [⟨[1, 2], 2⟩, ⟨[3, 4], 0⟩], 0, 2, 1, 1⟩ : ArrayList Nat).segments.length = 2 ∧
    ((⟨0, 2, [⟨[1, 2], 2⟩, ⟨[3, 4], 0⟩], 0, 2, 1, 1⟩ : ArrayList Nat).segments[1]?).map Segment.arr =
      some [3, 4] ∧
    ¬ (⟨0, 2, [⟨[1, 2], 2⟩, ⟨[3, 4], 0⟩], 0, 2, 1, 1⟩ : ArrayList Nat).segments.length ≤ 0 + 1 :=
  ⟨by decide, by decide, by decide, by decide, by decide, by decide, by decide⟩


/-- Core of the drained-RemoveLast analysis: truncating the segment list
just after the drained (now empty) cursor segment yields a well-formed
state whose empty segments sit only at the final position. -/
theorem removeLast_drain_core {T : Type} {al : ArrayList T} {seg : Segment T}
    (hc1 : 0 < al.segmentSize) (hc2 : al.segmentSize = 2 ^ al.segmentSizeShift)
    (hc3 : al.segmentSizeMask = al.segmentSize - 1)
    (harr : ∀ s ∈ al.segments, s.arr.length = al.segmentSize)
    (hlay : ∀ pr ∈ al.segments.enum, pr.2.count = min al.segmentSize (al.count - pr.1 * al.segmentSize))
    (hcidx : al.segmentIdx < al.segments.length)
    (hseg : al.segments[al.segmentIdx]? = some seg)
    (hceq : al.count = al.segmentIdx * al.segmentSize + 1) :
    ∀ L : List (Segment T),
      L = (al.segments.set al.segmentIdx { seg with count := 0 }).take (al.segmentIdx + 1) →
      L.length = al.segmentIdx + 1 ∧
      L[al.segmentIdx]? = some { seg with count := 0 } ∧
      (∀ j s2, L[j]? = some s2 → s2.count = 0 → j + 1 = L.length) ∧
      ArrayList.WF { al with
        segments := L
        count := al.count - 1
        segmentIdx := if 0 < al.segmentIdx then al.segmentIdx - 1 else al.segmentIdx } := by
  intro L hL
  have hsucc : (al.segmentIdx + 1) * al.segmentSize =
      al.segmentIdx * al.segmentSize + al.segmentSize := Nat.succ_mul _ _
  have hLlen : L.length = al.segmentIdx + 1 := by
    rw [hL]
    simp only [List.length_take, List.length_set]
    omega
  have hLj : ∀ j, j < al.segmentIdx → L[j]? = al.segments[j]? := by
    intro j hj
    rw [hL, List.getElem?_take_of_lt (by omega), List.getElem?_set_ne (by omega)]
  have hLi : L[al.segmentIdx]? = some { seg with count := 0 } := by
    rw [hL, List.getElem?_take_of_lt (by omega), List.getElem?_set_self hcidx]
  have hfull : ∀ j, j < al.segmentIdx →
      ∀ s2, L[j]? = some s2 → s2.count = al.segmentSize := by
    intro j hj s2 hjq
    rw [hLj j hj] at hjq
    have hjo : j < al.segments.length := by omega
    have hcntj := List.forall_mem_enum.mp hlay j hjo
    rw [getElem_eq_of_some hjo hjq] at hcntj
    dsimp only at hcntj
    have hm : (j + 1) * al.segmentSize ≤ al.segmentIdx * al.segmentSize :=
      Nat.mul_le_mul_right _ (by omega)
    have hjsucc : (j + 1) * al.segmentSize = j * al.segmentSize + al.segmentSize :=
      Nat.succ_mul _ _
    omega
  refine ⟨hLlen, hLi, ?_, ?_⟩
  · intro j s2 hj h0
    have hjlen : j < L.length := (List.getElem?_eq_some_iff.mp hj).1
    by_cases hij : j = al.segmentIdx
    · omega
    · have hjlt : j < al.segmentIdx := by omega
      have := hfull j hjlt s2 hj
      omega
  · refine ⟨hc1, hc2, hc3, ?_, ?_, ?_, ?_⟩
    · intro t ht
      rw [hL] at ht
      rcases List.mem_or_eq_of_mem_set (List.mem_of_mem_take ht) with h1 | rfl
      · exact harr t h1
      · exact harr seg (List.getElem?_mem hseg)
    · show ∀ pr ∈ L.enum, pr.2.count = min al.segmentSize (al.count - 1 - pr.1 * al.segmentSize)
      rw [List.forall_mem_enum]
      intro j hj
      dsimp only
      have hj2 : j < al.segmentIdx + 1 := by rw [← hLlen]; exact hj
      by_cases hij : j = al.segmentIdx
      · subst hij
        rw [getElem_eq_of_some hj hLi]
        dsimp only
        omega
      · have hjlt : j < al.segmentIdx := by omega
        have hv := hfull j hjlt _ (List.getElem?_eq_getElem hj)
        rw [hv]
        have hm : (j + 1) * al.segmentSize ≤ al.segmentIdx * al.segmentSize :=
          Nat.mul_le_mul_right _ (by omega)
        have hjsucc : (j + 1) * al.segmentSize = j * al.segmentSize + al.segmentSize :=
          Nat.succ_mul _ _
        omega
    · intro h0
      rw [hLlen] at h0
      omega
    · intro h0
      dsimp only at h0 ⊢
      by_cases hidx0 : 0 < al.segmentIdx
      · obtain ⟨m, hm⟩ : ∃ m, al.segmentIdx = m + 1 := ⟨al.segmentIdx - 1, by omega⟩
        rw [hm] at hceq hLlen
        have hms : (m + 1) * al.segmentSize = m * al.segmentSize + al.segmentSize :=
          Nat.succ_mul _ _
        rw [if_pos hidx0, hm]
        simp only [Nat.add_sub_cancel]
        refine ⟨by omega, by omega, Or.inr (by omega), by omega⟩
      · have hidx : al.segmentIdx = 0 := by omega
        rw [hidx] at hceq hLlen
        rw [Nat.zero_mul] at hceq
        rw [if_neg hidx0, hidx]
        refine ⟨by omega, by omega, Or.inl (by omega), by omega⟩

/-- C8 amended: when RemoveLast drains the cursor segment of a well-formed
non-empty list, the cursor retreats by one (clamped at zero) and, unless
the drained segment was already the last one, the segment at (old cursor +
1) — the one immediately after the DRAINED segment, not after the new
cursor — is dropped and the list truncated to exclude it, keeping the
just-drained segment as the single spare; in both cases empty segments
occur only at the final position and the invariant is preserved. -/
theorem c8_removeLast_shrink_amended {T : Type} {al : ArrayList T} {seg : Segment T}
    (hwf : al.WF) (hpos : 0 < al.count)
    (hseg : al.segments[al.segmentIdx]? = some seg) (hdrain : seg.count = 1) :
    ∃ al', al.RemoveLast = some al' ∧
      al'.count = al.count - 1 ∧
      al'.segmentIdx = (if 0 < al.segmentIdx then al.segmentIdx - 1 else al.segmentIdx) ∧
      (al.segments.length - 1 = al.segmentIdx →
        al'.segments = al.segments.set al.segmentIdx { seg with count := 0 }) ∧
      (al.segments.length - 1 ≠ al.segmentIdx →
        al'.segments.length = al.segmentIdx + 1 ∧
        al'.segments[al.segmentIdx]? = some { seg with count := 0 }) ∧
      (∀ j s2, al'.segments[j]? = some s2 → s2.count = 0 → j + 1 = al'.segments.length) ∧
      al'.WF := by
  obtain ⟨hc1, hc2, hc3, harr, hlay, hemp, hcur⟩ := hwf
  have hlen0 : 0 < al.segments.length := by
    rcases Nat.eq_zero_or_pos al.segments.length with h0 | h
    · obtain ⟨hh, -⟩ := hemp h0
      omega
    · exact h
  obtain ⟨hcidx, hub, hlbor, hlen2⟩ := hcur hlen0
  have hsucc : (al.segmentIdx + 1) * al.segmentSize =
      al.segmentIdx * al.segmentSize + al.segmentSize := Nat.succ_mul _ _
  have hlb : al.segmentIdx * al.segmentSize < al.count := by
    rcases hlbor with ⟨h1, h2⟩ | h3
    · omega
    · exact h3
  have hcnt : seg.count = min al.segmentSize (al.count - al.segmentIdx * al.segmentSize) := by
    have h2 := List.forall_mem_enum.mp hlay al.segmentIdx hcidx
    rwa [getElem_eq_of_some hcidx hseg] at h2
  have hceq : al.count = al.segmentIdx * al.segmentSize + 1 := by omega
  have hcore := removeLast_drain_core hc1 hc2 hc3 harr hlay hcidx hseg hceq
  by_cases hlast : al.segments.length - 1 = al.segmentIdx
  · have hlenq : al.segments.length = al.segmentIdx + 1 := by omega
    have htake : (al.segments.set al.segmentIdx { seg with count := 0 }).take (al.segmentIdx + 1) =
        al.segments.set al.segmentIdx { seg with count := 0 } :=
      List.take_of_length_le (by rw [List.length_set]; omega)
    obtain ⟨hLlen, hLi, hlastonly, hWF⟩ :=
      hcore (al.segments.set al.segmentIdx { seg with count := 0 }) htake.symm
    refine ⟨{ al with
        segments := al.segments.set al.segmentIdx { seg with count := 0 }
        count := al.count - 1
        segmentIdx := if 0 < al.segmentIdx then al.segmentIdx - 1 else al.segmentIdx },
      ?_, rfl, rfl, fun _ => rfl, fun hne => absurd hlast hne, hlastonly, hWF⟩
    unfold ArrayList.RemoveLast
    rw [if_neg (by omega)]
    split
    · rename_i hnone
      rw [hseg] at hnone
      cases hnone
    · rename_i t hsome
      rw [hseg] at hsome
      injection hsome with he
      subst he
      dsimp only
      rw [if_neg (by omega), if_pos (by rw [List.length_set]; omega),
        show seg.count - 1 = 0 from by omega]
  · have hlenq : al.segments.length = al.segmentIdx + 2 := by omega
    have hz : (al.segments.set al.segmentIdx { seg with count := seg.count - 1 })[al.segmentIdx + 1]? =
        some al.segments[al.segmentIdx + 1] := by
      rw [List.getElem?_set_ne (by omega)]
      exact List.getElem?_eq_getElem (by omega)
    have hfinal : ((al.segments.set al.segmentIdx { seg with count := seg.count - 1 }).set
        (al.segmentIdx + 1) { al.segments[al.segmentIdx + 1] with arr := [], count := 0 }).take
        (al.segmentIdx + 1) =
        (al.segments.set al.segmentIdx { seg with count := 0 }).take (al.segmentIdx + 1) := by
      apply List.ext_getElem?
      intro n
      rcases Nat.lt_or_ge n (al.segmentIdx + 1) with hn | hn
      · rw [List.getElem?_take_of_lt hn, List.getElem?_take_of_lt hn,
          List.getElem?_set_ne (by omega)]
        by_cases hni : al.segmentIdx = n
        · subst hni
          rw [List.getElem?_set_self (by omega), List.getElem?_set_self (by omega),
            show seg.count - 1 = 0 from by omega]
        · rw [List.getElem?_set_ne hni, List.getElem?_set_ne hni]
      · rw [List.getElem?_eq_none (by simp only [List.length_take, List.length_set]; omega),
          List.getElem?_eq_none (by simp only [List.length_take, List.length_set]; omega)]
    obtain ⟨hLlen, hLi, hlastonly, hWF⟩ :=
      hcore ((al.segments.set al.segmentIdx { seg with count := 0 }).take (al.segmentIdx + 1)) rfl
    refine ⟨{ al with
        segments := (al.segments.set al.segmentIdx { seg with count := 0 }).take (al.segmentIdx + 1)
        count := al.count - 1
        segmentIdx := if 0 < al.segmentIdx then al.segmentIdx - 1 else al.segmentIdx },
      ?_, rfl, rfl, fun heq => absurd heq hlast, fun _ => ⟨hLlen, hLi⟩, hlastonly, hWF⟩
    unfold ArrayList.RemoveLast
    rw [if_neg (by omega)]
    split
    · rename_i hnone
      rw [hseg] at hnone
      cases hnone
    · rename_i t hsome
      rw [hseg] at hsome
      injection hsome with he
      subst he
      dsimp only
      rw [if_neg (by omega), if_neg (by rw [List.length_set]; omega)]
      split
      · rename_i hnone
        rw [hz] at hnone
        cases hnone
      · rename_i s2 hsome2
        rw [hz] at hsome2
        injection hsome2 with he2
        subst he2
        rw [hfinal]

theorem c8_removeLast_shrink_amended_witness :
    ∃ al', ArrayList.RemoveLast
        (⟨0, 3, [⟨[1, 2], 2⟩, ⟨[3, 4], 1⟩, ⟨[5, 0], 0⟩], 1, 2, 1, 1⟩ : ArrayList Nat) = some al' ∧
      al'.count = 2 ∧ al'.segmentIdx = 0 ∧ al'.segments.length = 2 ∧
      al'.segments[1]? = some ⟨[3, 4], 0⟩ ∧ al'.WF := by
  obtain ⟨al', hrem, hcnt, hidx, -, htr, hlast, hWF⟩ :=
    @c8_removeLast_shrink_amended Nat
      (⟨0, 3, [⟨[1, 2], 2⟩, ⟨[3, 4], 1⟩, ⟨[5, 0], 0⟩], 1, 2, 1, 1⟩ : ArrayList Nat)
      ⟨[3, 4], 1⟩ (by decide) (by decide) (by decide) (by decide)
  obtain ⟨hlen, hat⟩ := htr (by decide)
  exact ⟨al', hrem, hcnt, hidx, hlen, hat, hWF⟩
